import Mathlib

/-!
Verification development for the beancount-aib repository.

The repository's core is a rule-driven payee-cleanup pipeline: an imported
bank-CSV row becomes a record (payee string, tag set, metadata map) that is
repeatedly rewritten by an ordered table of regex-rules (the AIB rule table in
src/beancount_aib/extractors.py), then post-processed by the importer
(src/beancount_aib/importer.py) and categorizer (src/beancount_aib/categorizer.py).

The cleanup engine itself (TxnPayeeCleanup and the C/P/T/M action vocabulary of
the external beancount_tx_cleanup package) is not part of this repository's
sources; it is modelled here from the specification, constrained by the
repository's own tests (extractors_test.py CLEANER_SCENARIOS and
tests/importer_test.py).  Everything else — the AIB rule table, the importer
logic and the categorizer — is translated directly from the sources.

Strings are modelled as lists of characters; the record's payees are ASCII.
-/

set_option maxRecDepth 20000

namespace BeancountAib

/-- Strings as character lists; all payee manipulation works on these. -/
abbrev Str := List Char

/-- Turn a Lean string literal into the character-list representation. -/
def S (s : String) : Str := s.data

/-- ASCII lower-casing of one character, as Python str.lower acts on the
ASCII payees this repository handles. -/
def pyLower (c : Char) : Char :=
  if 65 ≤ c.toNat && c.toNat ≤ 90 then Char.ofNat (c.toNat + 32) else c

/-- ASCII upper-casing of one character, as Python str.upper on ASCII input. -/
def pyUpper (c : Char) : Char :=
  if 97 ≤ c.toNat && c.toNat ≤ 122 then Char.ofNat (c.toNat - 32) else c

/-- Python str.lower on an ASCII string. -/
def strLower (s : Str) : Str := s.map pyLower

/-- Python str.upper on an ASCII string. -/
def strUpper (s : Str) : Str := s.map pyUpper

/-- Python str.capitalize: first character upper-cased, the rest lower-cased. -/
def pyCapitalize : Str → Str
  | [] => []
  | c :: cs => pyUpper c :: strLower cs

/-- The whitespace characters stripped by Python str.strip(). -/
def isPyWS (c : Char) : Bool :=
  c = ' ' || c = '\t' || c = '\n' || c = '\r' || c = '\x0b' || c = '\x0c'

/-- Python str.strip(): drop leading and trailing whitespace. -/
def pyStrip (s : Str) : Str :=
  ((s.dropWhile isPyWS).reverse.dropWhile isPyWS).reverse

/-! ### Regular expressions

A small regular-expression abstract syntax covering exactly the constructs
used by the AIB rule table (src/beancount_aib/extractors.py).  Quantifiers
only ever apply to single-character classes there, which the syntax reflects;
`optR` covers the optional multi-character groups.  Each rule's pattern is
transcribed into this syntax next to a comment quoting the original regex. -/

inductive Re where
  /-- matches the empty string (used for an empty alternation branch) -/
  | epsR : Re
  /-- a single character satisfying the class -/
  | chC (f : Char → Bool) : Re
  /-- a literal character sequence -/
  | litS (s : Str) : Re
  | catR (a b : Re) : Re
  /-- alternation, left branch preferred (Python backtracking order) -/
  | altR (a b : Re) : Re
  /-- greedy `(...)?` -/
  | optR (a : Re) : Re
  /-- greedy `c*` over a character class -/
  | starC (f : Char → Bool) : Re
  /-- greedy `c+` over a character class -/
  | plusC (f : Char → Bool) : Re
  /-- greedy `c{lo,hi}` over a character class -/
  | repC (f : Char → Bool) (lo hi : Nat) : Re
  /-- numbered capture group -/
  | grpR (n : Nat) (a : Re) : Re
  /-- `^` (start of the searched string) -/
  | bos : Re
  /-- `$` (end of the searched string) -/
  | eos : Re
  /-- `\b` word boundary -/
  | wb : Re
  /-- lookahead `(?=...)` when pos, `(?!...)` when not -/
  | laR (pos : Bool) (a : Re) : Re
  /-- negative lookbehind `(?<!s)` for a fixed literal -/
  | lbNeg (s : Str) : Re

/-- Character digit class `\d`. -/
def isReDigit (c : Char) : Bool := '0' ≤ c && c ≤ '9'

/-- Character class `[A-Z]`. -/
def isReUpper (c : Char) : Bool := 'A' ≤ c && c ≤ 'Z'

/-- Character class `[a-z]`. -/
def isReLower (c : Char) : Bool := 'a' ≤ c && c ≤ 'z'

/-- Word characters for `\b`. -/
def isReWord (c : Char) : Bool := isReDigit c || isReUpper c || isReLower c || c = '_'

/-- `.` outside DOTALL mode: any character except a newline. -/
def notNL (c : Char) : Bool := c ≠ '\n'

/-- Class membership under the per-rule case-insensitivity flag `(?i)`. -/
def chTest (ic : Bool) (f : Char → Bool) (c : Char) : Bool :=
  f c || (ic && (f (pyLower c) || f (pyUpper c)))

/-- Literal-character comparison under the case-insensitivity flag. -/
def litTest (ic : Bool) (p c : Char) : Bool :=
  p = c || (ic && pyLower p = pyLower c)

/-- Capture environment: group number to captured text, most recent first. -/
abbrev Env := List (Nat × Str)

/-- One backtracking outcome: capture environment, consumed-input stack
(reversed prefix of the searched string up to the current point), and the
remaining input. -/
abbrev ReOut := Env × Str × Str

/-- Match a literal sequence, threading the consumed-character stack. -/
def litMatch (ic : Bool) : Str → Str → Str → Option (Str × Str)
  | [], l, r => some (l, r)
  | p :: ps, l, r =>
    match r with
    | [] => none
    | c :: rs => if litTest ic p c then litMatch ic ps (c :: l) rs else none

/-- Greedy single-class quantifier outcomes: `taken` is the maximal (already
bounded) run of class characters; produce the suffix outcomes longest-first,
requiring at least `lo` characters consumed. -/
def gtMin (env : Env) : Str → Str → Str → Nat → List ReOut
  | l, [], rest, lo => if lo = 0 then [(env, l, rest)] else []
  | l, c :: cs, rest, lo =>
    gtMin env (c :: l) cs rest (lo - 1) ++
      (if lo = 0 then [(env, l, c :: cs ++ rest)] else [])

/-- `\b`: the two sides of the current point disagree on word-ness. -/
def atWB (l r : Str) : Bool :=
  match l, r with
  | [], [] => false
  | [], c :: _ => isReWord c
  | a :: _, [] => isReWord a
  | a :: _, c :: _ => isReWord a != isReWord c

/-- All backtracking outcomes of matching `re` at the current point, in
Python's preference order (leftmost alternative first, greedy quantifiers
longest first).  `l` is the reversed already-consumed prefix (for `^`, `\b`
and lookbehind), `r` the remaining input. -/
def runs : Re → Bool → Str → Str → Env → List ReOut
  | .epsR, _, l, r, env => [(env, l, r)]
  | .chC f, ic, l, r, env =>
    match r with
    | [] => []
    | c :: rs => if chTest ic f c then [(env, c :: l, rs)] else []
  | .litS s, ic, l, r, env =>
    match litMatch ic s l r with
    | some (l', r') => [(env, l', r')]
    | none => []
  | .catR a b, ic, l, r, env =>
    (runs a ic l r env).flatMap fun o => runs b ic o.2.1 o.2.2 o.1
  | .altR a b, ic, l, r, env => runs a ic l r env ++ runs b ic l r env
  | .optR a, ic, l, r, env => runs a ic l r env ++ [(env, l, r)]
  | .starC f, ic, l, r, env =>
    let taken := r.takeWhile (chTest ic f)
    gtMin env l taken (r.drop taken.length) 0
  | .plusC f, ic, l, r, env =>
    let taken := r.takeWhile (chTest ic f)
    gtMin env l taken (r.drop taken.length) 1
  | .repC f lo hi, ic, l, r, env =>
    let taken := (r.takeWhile (chTest ic f)).take hi
    gtMin env l taken (r.drop taken.length) lo
  | .grpR n a, ic, l, r, env =>
    (runs a ic l r env).map fun o =>
      ((n, r.take (r.length - o.2.2.length)) :: o.1, o.2.1, o.2.2)
  | .bos, _, l, r, env => if l.isEmpty then [(env, l, r)] else []
  | .eos, _, l, r, env => if r.isEmpty then [(env, l, r)] else []
  | .wb, _, l, r, env => if atWB l r then [(env, l, r)] else []
  | .laR pos a, ic, l, r, env =>
    if (runs a ic l r env).isEmpty != pos then [(env, l, r)] else []
  | .lbNeg s, _, l, r, env =>
    if s.reverse.isPrefixOf l then [] else [(env, l, r)]

/-- The result of a successful regex search: the payee splits as
`pre ++ matched ++ post`, and `groups` holds the captured spans. -/
structure RMatch where
  pre : Str
  matched : Str
  post : Str
  groups : Env
deriving Repr

/-- Python group access: group 0 is the whole match; a group that did not
participate in the match is `none`. -/
def RMatch.grp (m : RMatch) (n : Nat) : Option Str :=
  if n = 0 then some m.matched
  else (m.groups.find? fun p => p.1 == n).map (·.2)

/-- `m.grp` with an (unreachable for the rules below) empty default, for the
source's custom replacement functions that call `m.group(i)` directly. -/
def RMatch.grpD (m : RMatch) (n : Nat) : Str := (m.grp n).getD []

/-- Try to match `re` at successive start positions (`lrev` the reversed
prefix before the current position); first success wins, mirroring
Python `re.search` leftmost semantics. -/
def searchFrom (re : Re) (ic : Bool) : Str → Str → Option RMatch
  | lrev, rest =>
    match runs re ic lrev rest [] with
    | (env, _, r') :: _ =>
      some ⟨lrev.reverse, rest.take (rest.length - r'.length), r', env⟩
    | [] =>
      match rest with
      | [] => none
      | c :: rs => searchFrom re ic (c :: lrev) rs

/-- Python `re.search`: leftmost match of the pattern in `s`, if any. -/
def reSearch (re : Re) (ic : Bool) (s : Str) : Option RMatch :=
  searchFrom re ic [] s

/-! ### Records, actions, rules and the cleanup engine

Modelled from the spec: the engine (`TxnPayeeCleanup`) and the action
vocabulary (`C`/`P`/`T`/`M` of beancount_tx_cleanup.cleaner) are not part of
this repository's sources; sections 3, 4.1 and 4.3 of the specification
describe them, and the repository's own tests
(extractors_test.py CLEANER_SCENARIOS, tests/importer_test.py) pin down the
behaviours the spec leaves open. -/

/-- The transaction record the cleanup engine mutates: payee string, tag set
(modelled as a duplicate-free insertion-ordered list) and metadata mapping
(insertion-ordered association list with unique keys). -/
structure TxRec where
  payee : Str
  tags : List Str
  meta : List (Str × Str)
deriving DecidableEq, Repr

/-- How a rule computes a value from a match: a literal, a back-reference to
one capture group (`\N` / `\g<N>` templates — every template in the AIB table
is a single reference or a literal), or a custom function of the match. -/
inductive TVal where
  | lit (s : Str) : TVal
  | gref (n : Nat) : TVal
  | fn (f : RMatch → Str) : TVal

/-- Modelled from the spec (section 4.1): compute an action's value against a
match; a back-reference to a group that did not participate fails (the action
then no-ops silently). -/
def resolveTVal (m : RMatch) : TVal → Option Str
  | .lit s => some s
  | .gref n => m.grp n
  | .fn f => some (f m)

/-- Exact-match translation lookup: the value on a hit, `none` on a miss. -/
def trLookup (tbl : List (Str × Str)) (k : Str) : Option Str :=
  (tbl.find? fun p => p.1 == k).map (·.2)

/-- Modelled from the spec (section 4.1, Meta): apply a translation table to a
value by exact-match lookup, passing the value through on a miss. -/
def metaTranslate (tbl : List (Str × Str)) (v : Str) : Str :=
  match trLookup tbl v with
  | some w => w
  | none => v

/-- Modelled from the spec (section 4.1, Tag) and the repository's tests: the
tag value is looked up in the translation table under its lower-cased form
(CLEANER_SCENARIOS requires 'VDC' to translate to 'contactless' while 'BRL'
passes through unchanged), passing the original value through on a miss. -/
def tagTranslate (tbl : List (Str × Str)) (v : Str) : Str :=
  match trLookup tbl (strLower v) with
  | some w => w
  | none => v

/-- Write `metadata[key] = value`, overwriting in place (Python dict update). -/
def setMeta : List (Str × Str) → Str → Str → List (Str × Str)
  | [], k, v => [(k, v)]
  | (k', v') :: rest, k, v =>
    if k' = k then (k, v) :: rest else (k', v') :: setMeta rest k v

/-- Metadata lookup. -/
def lookupMeta : List (Str × Str) → Str → Option Str
  | [], _ => none
  | (k', v) :: rest, k => if k' = k then some v else lookupMeta rest k

/-- Insert into the tag set; an empty value is silently dropped (spec
section 4.1: Tag must no-op on an empty computed value). -/
def addTag (tags : List Str) (t : Str) : List Str :=
  if t = [] then tags
  else if tags.contains t then tags else tags ++ [t]

/-- Modelled from the spec (section 4.1): the four action kinds a rule can
attach.  `tagA` carries its optional translation table; `metaA` its key,
optional translation table and optional transformer function. -/
inductive Action where
  /-- delete the matched span from the payee -/
  | consume : Action
  /-- replace the matched span -/
  | replace (v : TVal) : Action
  /-- add a value to the tag set -/
  | tagA (v : TVal) (translation : List (Str × Str)) : Action
  /-- write a metadata key; translation is applied before the transformer -/
  | metaA (key : Str) (v : TVal) (translation : List (Str × Str))
      (transformer : Option (Str → Str)) : Action

/-- The source's `C` action (consume the matched text). -/
def C : Action := .consume

/-- The source's `P(v=...)` action (replace the matched span). -/
def P (v : TVal) : Action := .replace v

/-- The source's `T(v=..., translation=...)` action; `v` defaults to `\1` at
the use sites below. -/
def T (v : TVal) (translation : List (Str × Str)) : Action := .tagA v translation

/-- The source's `M(n=..., v=..., translation=..., transformer=...)` action;
`v` defaults to `\1` at the use sites below. -/
def M (n : Str) (v : TVal) (translation : List (Str × Str))
    (transformer : Option (Str → Str)) : Action :=
  .metaA n v translation transformer

/-- Modelled from the spec (sections 4.1 and 4.3): apply one action against
the match `m` of the current rule.  Replace/Consume rewrite exactly the
matched span; a failed value computation makes the action a no-op. -/
def applyAction (m : RMatch) (rec : TxRec) : Action → TxRec
  | .consume => { rec with payee := m.pre ++ m.post }
  | .replace v =>
    match resolveTVal m v with
    | some repl => { rec with payee := m.pre ++ repl ++ m.post }
    | none => rec
  | .tagA v tbl =>
    match resolveTVal m v with
    | some val => { rec with tags := addTag rec.tags (tagTranslate tbl val) }
    | none => rec
  | .metaA key v tbl tf =>
    match resolveTVal m v with
    | some val =>
      let translated := metaTranslate tbl val
      let final := match tf with
        | some f => f translated
        | none => translated
      { rec with meta := setMeta rec.meta key final }
    | none => rec

/-- A rule: one pattern (with its case-insensitivity flag, encoded by `(?i)`
in the source pattern) plus the ordered actions to run against each match. -/
structure Rule where
  re : Re
  ic : Bool
  actions : List Action

/-- Modelled from the spec (section 4.3, step 2): search the payee for the
rule's leftmost match; on a match apply all the rule's actions, in order,
against that single match.  Returns whether the rule fired. -/
def applyRule (rec : TxRec) (ru : Rule) : TxRec × Bool :=
  match reSearch ru.re ru.ic rec.payee with
  | none => (rec, false)
  | some m => (ru.actions.foldl (applyAction m) rec, true)

/-- One full pass over the rule table in order (spec section 4.3, step 2). -/
def passRules (rules : List Rule) (rec : TxRec) : TxRec :=
  rules.foldl (fun rc ru => (applyRule rc ru).1) rec

/-- One pass plus the end-of-pass payee trim (spec section 4.3, step 4). -/
def passRec (rules : List Rule) (rec : TxRec) : TxRec :=
  let r2 := passRules rules rec
  { r2 with payee := pyStrip r2.payee }

/-- Modelled from the spec (section 4.3 steps 2–4, sections 5 and 7): the
cleanup driver loop.  Passes repeat until a pass leaves the record unchanged
— the spec's fixpoint condition; a raw zero-matches condition would never be
reached on payees held fixed by self-replacing rules such as the Amazon Prime
and second Google rules of the AIB table, whose Replace rewrites the match
with itself.  Non-convergence within the defensive pass bound `fuel` is a
configuration error surfaced to the caller (spec section 7), modelled as
`none`. -/
def cleanup : Nat → List Rule → TxRec → Option TxRec
  | 0, _, _ => none
  | fuel + 1, rules, rec =>
    let rec2 := passRec rules rec
    if rec2 = rec then some rec else cleanup fuel rules rec2

/-- Modelled from the spec (section 4.3) and tests/importer_test.py
(test_current_account): run the cleanup loop and record the pre-cleanup payee
under `preserveKey` — the importer's expected entries show the key present
exactly when cleanup changed the payee, so an unchanged payee leaves the
metadata untouched. -/
def TxnPayeeCleanup (fuel : Nat) (rules : List Rule) (preserveKey : Option Str)
    (rec : TxRec) : Option TxRec :=
  match cleanup fuel rules rec with
  | none => none
  | some r2 =>
    match preserveKey with
    | none => some r2
    | some k =>
      if r2.payee = rec.payee then some r2
      else some { r2 with meta := setMeta r2.meta k rec.payee }

/-! ### The AIB rule table

Transcribed rule-for-rule from src/beancount_aib/extractors.py.  Each rule's
doc comment quotes the source pattern; the abstract syntax next to it is its
direct transcription (a leading `(?i)` becomes the rule's `ic` flag). -/

/-- Right-nested alternation in the source's left-to-right preference order. -/
def altN : List Re → Re
  | [] => .epsR
  | [a] => a
  | a :: rest => .altR a (altN rest)

/-- Right-nested concatenation. -/
def catN : List Re → Re
  | [] => .epsR
  | [a] => a
  | a :: rest => .catR a (catN rest)

/-- Literal-string pattern piece. -/
def lS (s : String) : Re := .litS (S s)

/-- The space character class. -/
def isSpaceC (c : Char) : Bool := c = ' '

/-- Class `[\d.]`. -/
def isDigitDot (c : Char) : Bool := isReDigit c || c = '.'

/-- Remove leading and trailing stars: `(^\*|\*$)` with action `C`. -/
def eStars : Rule :=
  ⟨.grpR 1 (.altR (.catR .bos (.chC fun c => c = '*'))
                  (.catR (.chC fun c => c = '*') .eos)),
   false, [C]⟩

/-- Stars next to a space: `( \*|\* )` with action `P(v=' ')`. -/
def eStarSpace : Rule :=
  ⟨.grpR 1 (.altR (lS (" *")) (lS ("* "))), false, [P (.lit (S (" ")))]⟩

/-- Transaction timestamp: `(?i)(time)? *(\d\d:\d\d)$` with actions
`[M(n='time', v='\2'), C]`. -/
def eTime : Rule :=
  ⟨catN [.optR (.grpR 1 (lS ("time"))), .starC isSpaceC,
         .grpR 2 (catN [.chC isReDigit, .chC isReDigit, .chC (fun c => c = ':'),
                        .chC isReDigit, .chC isReDigit]),
         .eos],
   true, [M (S ("time")) (.gref 2) [] none, C]⟩

/-- Foreign currency transaction: ` ([\d.]+) ([A-Z]{3})@ [\d.]+` with actions
`[M(n='foreign-amount'), T(v='\2'), C]`. -/
def eForeign : Rule :=
  ⟨catN [.chC isSpaceC, .grpR 1 (.plusC isDigitDot), .chC isSpaceC,
         .grpR 2 (.repC isReUpper 3 3), .chC (fun c => c = '@'), .chC isSpaceC,
         .plusC isDigitDot],
   false, [M (S ("foreign-amount")) (.gref 1) [] none, T (.gref 2) [], C]⟩

/-- Transfer ID: ` *(IE\d+)` with actions `[M(n='id'), C]`. -/
def eId : Rule :=
  ⟨catN [.starC isSpaceC, .grpR 1 (.catR (lS ("IE")) (.plusC isReDigit))],
   false, [M (S ("id")) (.gref 1) [] none, C]⟩

/-- Ryanair transaction ID: `RYANAIR +(.+)` with actions
`[M(n='id'), P(v='Ryanair')]`. -/
def eRyanair : Rule :=
  ⟨catN [lS ("RYANAIR"), .plusC isSpaceC, .grpR 1 (.plusC notNL)],
   false, [M (S ("id")) (.gref 1) [] none, P (.lit (S ("Ryanair")))]⟩

/-- FreeNow transaction ID: `FREENOW\*(?=.*\d)([A-Z\d-]+)` with actions
`[M(n='id'), P(v='FreeNow')]`. -/
def eFreenow : Rule :=
  ⟨catN [lS ("FREENOW*"), .laR true (.catR (.starC notNL) (.chC isReDigit)),
         .grpR 1 (.plusC fun c => isReUpper c || isReDigit c || c = '-')],
   false, [M (S ("id")) (.gref 1) [] none, P (.lit (S ("FreeNow")))]⟩

/-- The transaction-flavour translation table of the source. -/
def flavourTbl : List (Str × Str) :=
  [(S ("atm"), S ("atm-aib")),
   (S ("atmldg"), S ("atm-lodgement")),
   (S ("d/d"), S ("direct-debit")),
   (S ("inet"), S ("online-interface")),
   (S ("mobi"), S ("app")),
   (S ("msa"), S ("atm")),
   (S ("msp"), S ("point-of-sale")),
   (S ("op/"), S ("direct-debit")),
   (S ("pos"), S ("point-of-sale")),
   (S ("vda"), S ("atm")),
   (S ("vdc"), S ("contactless")),
   (S ("vdp"), S ("point-of-sale"))]

/-- Class `[apc]`. -/
def isAPC (c : Char) : Bool := c = 'a' || c = 'p' || c = 'c'

/-- Class `[ap]`. -/
def isMSAP (c : Char) : Bool := c = 'a' || c = 'p'

/-- The flavour rule's alternation `(vd[apc]|op/|atm|pos|mobi|inet|d/d|atmldg|ms[ap]|)`,
empty branch last, in the source's order. -/
def flavourAltRe : Re :=
  altN [.catR (lS ("vd")) (.chC isAPC),
        lS ("op/"), lS ("atm"), lS ("pos"), lS ("mobi"), lS ("inet"),
        lS ("d/d"), lS ("atmldg"),
        .catR (lS ("ms")) (.chC isMSAP),
        .epsR]

/-- Transaction flavour: `(?i)^(vd[apc]|op/|atm|pos|mobi|inet|d/d|atmldg|ms[ap]|)[- ]`
with actions `[T(translation=flavourTbl), C]` (the `T` value defaults to `\1`). -/
def eFlavour : Rule :=
  ⟨catN [.bos, .grpR 1 flavourAltRe, .chC fun c => c = '-' || c = ' '],
   true, [T (.gref 1) flavourTbl, C]⟩

/-- The metadata key `'payment-processor'` (the source's `TAG` constant). -/
def TAG : Str := S ("payment-processor")

/-- The payment-processor translation table of the source. -/
def ppTbl : List (Str × Str) := [(S ("sq"), S ("square")), (S ("sp"), S ("stripe"))]

/-- Payment processors: `(?i)^(paypal|sumup|sq|sp|zettle)[ _]` with actions
`[M(n=TAG, transformer=lower, translation=ppTbl), C]` (`M` value defaults to `\1`). -/
def ePayProc : Rule :=
  ⟨catN [.bos,
         .grpR 1 (altN [lS ("paypal"), lS ("sumup"), lS ("sq"), lS ("sp"), lS ("zettle")]),
         .chC fun c => c = ' ' || c = '_'],
   true, [M TAG (.gref 1) ppTbl (some strLower), C]⟩

/-- The source's `M_GOOG = M(n=TAG, v='google')` action. -/
def M_GOOG : Action := M TAG (.lit (S ("google"))) [] none

/-- Google transactions 1/2:
`(?i)^google +\b(?!google|cloud|commerce|domain|ireland|music|payment|play|servic|svcs|store|youtub|voic)(.+)`
with actions `[M_GOOG, P(v='\1')]`. -/
def eGoogle1 : Rule :=
  ⟨catN [.bos, lS ("google"), .plusC isSpaceC, .wb,
         .laR false (altN [lS ("google"), lS ("cloud"), lS ("commerce"), lS ("domain"),
                           lS ("ireland"), lS ("music"), lS ("payment"), lS ("play"),
                           lS ("servic"), lS ("svcs"), lS ("store"), lS ("youtub"),
                           lS ("voic")]),
         .grpR 1 (.plusC notNL)],
   true, [M_GOOG, P (.gref 1)]⟩

/-- Google transactions 2/2: `(?i)^google +\b(payment|play|servic)` with
actions `[M_GOOG, P(v='\g<0>')]`. -/
def eGoogle2 : Rule :=
  ⟨catN [.bos, lS ("google"), .plusC isSpaceC, .wb,
         .grpR 1 (altN [lS ("payment"), lS ("play"), lS ("servic")])],
   true, [M_GOOG, P (.gref 0)]⟩

/-- Date strings on non-fee transactions: `(?<!TO )\d\d[A-Z]{3}\d\d *` with
action `C`. -/
def eDate : Rule :=
  ⟨catN [.lbNeg (S ("TO ")), .chC isReDigit, .chC isReDigit, .repC isReUpper 3 3,
         .chC isReDigit, .chC isReDigit, .starC isSpaceC],
   false, [C]⟩

/-- Amazon 1/4: `(?i)^(www.)?amazon((\.co)?\.[a-z]{2,3})(.*)` with action
`P(v=lambda m: 'Amazon' + m.group(2).lower() + m.group(4))`. -/
def eAmazon1 : Rule :=
  ⟨catN [.bos, .optR (.grpR 1 (.catR (lS ("www")) (.chC notNL))), lS ("amazon"),
         .grpR 2 (catN [.optR (.grpR 3 (lS (".co"))), .chC (fun c => c = '.'),
                        .repC isReLower 2 3]),
         .grpR 4 (.starC notNL)],
   true, [P (.fn fun m => S ("Amazon") ++ strLower (m.grpD 2) ++ m.grpD 4)]⟩

/-- Amazon 2/4: `(?i)^amazon prime.*` with action `P(v='Amazon Prime')`. -/
def eAmazonPrime : Rule :=
  ⟨catN [.bos, lS ("amazon prime"), .starC notNL],
   true, [P (.lit (S ("Amazon Prime")))]⟩

/-- Amazon 3/4: `(?i)^amazon [\d-]+` with action `P(v='Amazon')`. -/
def eAmazon3 : Rule :=
  ⟨catN [.bos, lS ("amazon "), .plusC fun c => isReDigit c || c = '-'],
   true, [P (.lit (S ("Amazon")))]⟩

/-- Amazon 4/4: `(?i)^(amazon[^*]+)\*.*` with action `P(v='\g<1>')`. -/
def eAmazon4 : Rule :=
  ⟨catN [.bos, .grpR 1 (.catR (lS ("amazon")) (.plusC fun c => c ≠ '*')),
         .chC (fun c => c = '*'), .starC notNL],
   true, [P (.gref 1)]⟩

/-- The source's `SHORT_NAME_LENGTH = 3`. -/
def SHORT_NAME_LENGTH : Nat := 3

/-- Branch/location payees:
`(?i)^(applegreen|boi|centra|circle k|dunnes|eurospar|gamestop|mcdonalds|michie sushi|pablo picante|park rite|penneys|pizza hut|polonez|spar|starbucks|supervalu|topaz|ubl|ulster bank|wh smith|zabka) +(.+)$`
with actions `[M(n='location', v='\2', transformer=lower),
P(v=lambda m: m.group(1).upper() if len(m.group(1)) <= SHORT_NAME_LENGTH else m.group(1).capitalize())]`. -/
def eBranch : Rule :=
  ⟨catN [.bos,
         .grpR 1 (altN [lS ("applegreen"), lS ("boi"), lS ("centra"), lS ("circle k"),
                        lS ("dunnes"), lS ("eurospar"), lS ("gamestop"), lS ("mcdonalds"),
                        lS ("michie sushi"), lS ("pablo picante"), lS ("park rite"),
                        lS ("penneys"), lS ("pizza hut"), lS ("polonez"), lS ("spar"),
                        lS ("starbucks"), lS ("supervalu"), lS ("topaz"), lS ("ubl"),
                        lS ("ulster bank"), lS ("wh smith"), lS ("zabka")]),
         .plusC isSpaceC, .grpR 2 (.plusC notNL), .eos],
   true,
   [M (S ("location")) (.gref 2) [] (some strLower),
    P (.fn fun m =>
        let g := m.grpD 1
        if g.length ≤ SHORT_NAME_LENGTH then strUpper g else pyCapitalize g)]⟩

/-- The AIB rule table `AIB_EXTRACTORS`, in source order. -/
def aibRules : List Rule :=
  [eStars, eStarSpace, eTime, eForeign, eId, eRyanair, eFreenow, eFlavour,
   ePayProc, eGoogle1, eGoogle2, eDate, eAmazon1, eAmazonPrime, eAmazon3,
   eAmazon4, eBranch]

/-! ### Ledger entries

Minimal models of the beancount directives the importer and categorizer deal
in, shaped after the helper constructors `Post`/`Tx`/`Bal` of
beancount_tx_cleanup.helpers as used by src/beancount_aib/importer.py
(metadata is modelled by the string-valued entries relevant to the claims;
beancount's bookkeeping filename/lineno entries, constant per row, are
outside the model). -/

/-- A posting: account plus optional amount (value and currency); the
categorizer's `Post(account)` leaves the amount `none`. -/
structure Posting where
  account : Str
  amount : Option (Str × Str)
deriving DecidableEq, Repr

/-- A transaction directive. -/
structure Txn where
  date : Int
  flag : Str
  payee : Str
  tags : List Str
  meta : List (Str × Str)
  postings : List Posting
deriving DecidableEq, Repr

/-- A balance directive. -/
structure BalDir where
  date : Int
  account : Str
  amount : Str
  currency : Str
  meta : List (Str × Str)
deriving DecidableEq, Repr

/-- A ledger entry, as far as this repository distinguishes them. -/
inductive Entry where
  | tx (t : Txn) : Entry
  | bal (b : BalDir) : Entry
deriving DecidableEq, Repr

/-! ### The importer (src/beancount_aib/importer.py)

CSV dialect handling and date parsing are external concerns (spec section 1);
a `Row` models one parsed CSV row as `Importer._parse` reads it: dates are day
numbers, `descr` is the `Description` field (or the stripped-and-joined
`Description1..3` fields), `localCurrency` is `'EUR'` when the file has no
such column (the `row.get` default). -/

/-- One parsed CSV row. -/
structure Row where
  account : Str
  date : Int
  descr : Str
  isCredit : Bool
  rawAmount : Str
  balance : Str
  localCurrency : Str
  localAmount : Str
deriving DecidableEq, Repr

/-- Importer configuration: the account map, the extractor table (a deep copy
of `AIB_EXTRACTORS` by default) and the optional cutoff. -/
structure ImporterCfg where
  accountMap : List (Str × Str)
  extractors : List Rule
  cutoffDays : Option Int

/-- The importer's currency constant. -/
def currencyEUR : Str := S ("EUR")

/-- The importer's transaction flag `'!'`. -/
def flagBang : Str := S ("!")

/-- The amount string of a row: the credit amount, or `'-'` prepended to the
debit amount; commas removed, then stripped (`Importer._parse`). -/
def rowAmount (row : Row) : Str :=
  pyStrip ((if row.isCredit then row.rawAmount else '-' :: row.rawAmount).filter
    fun c => c ≠ ',')

/-- Build the row's transaction before cleanup (`Importer._parse`): stripped
payee, flag `'!'`, a single posting on the importer's account, and — when the
row's local currency differs from EUR — the lower-cased currency tag and the
stripped foreign amount in the metadata. -/
def rowTxn (iacct : Str) (row : Row) : Txn :=
  { date := row.date,
    flag := flagBang,
    payee := pyStrip row.descr,
    tags := if row.localCurrency ≠ currencyEUR then [strLower row.localCurrency] else [],
    meta := if row.localCurrency ≠ currencyEUR
      then [(S ("foreign-amount"), pyStrip row.localAmount)] else [],
    postings := [⟨iacct, some (rowAmount row, currencyEUR)⟩] }

/-- One row through `Importer._parse`: build the transaction and, when the
extractor table is non-empty (`if self.extractors:`), run the cleanup with
`preserveOriginalIn='original-payee'`. -/
def parseRowTx (fuel : Nat) (exs : List Rule) (iacct : Str) (row : Row) : Option Txn :=
  let t := rowTxn iacct row
  if exs.isEmpty then some t
  else
    match TxnPayeeCleanup fuel exs (some (S ("original-payee"))) ⟨t.payee, t.tags, t.meta⟩ with
    | none => none
    | some rc => some { t with payee := rc.payee, tags := rc.tags, meta := rc.meta }

/-- The last seen balance (`Importer._parse`'s `last_balance`). -/
structure LastBal where
  date : Int
  amount : Str
  meta : List (Str × Str)
deriving DecidableEq, Repr

/-- `Importer._parse` over all rows: the transactions in row order plus the
balance of the last row whose `Balance` field is non-empty (the Python
truthiness test on `row.get('Balance', None)`). -/
def parseRows (fuel : Nat) (exs : List Rule) (iacct : Str) :
    List Row → Option (List Txn × Option LastBal)
  | [] => some ([], none)
  | row :: rest =>
    match parseRowTx fuel exs iacct row with
    | none => none
    | some t =>
      match parseRows fuel exs iacct rest with
      | none => none
      | some (ts, lbRest) =>
        some (t :: ts,
          lbRest <|>
            (if row.balance ≠ []
              then some ⟨row.date, pyStrip row.balance, (rowTxn iacct row).meta⟩
              else none))

/-- Account-map lookup. -/
def lookupAcct (mp : List (Str × Str)) (k : Str) : Option Str :=
  (mp.find? fun p => p.1 == k).map (·.2)

/-- `Importer.identify` on the parsed rows: every row names the same account
in its first field and that account is in the account map; returns the mapped
importer account (the file mimetype test is outside the model). -/
def identifyRows (mp : List (Str × Str)) : List Row → Option Str
  | [] => none
  | r0 :: rest =>
    if rest.all (fun r => r.account == r0.account) then lookupAcct mp r0.account
    else none

/-- Stable insertion into a date-sorted list (equal dates keep file order). -/
def insertByDate (t : Txn) : List Txn → List Txn
  | [] => [t]
  | u :: us => if u.date ≤ t.date then u :: insertByDate t us else t :: u :: us

/-- `entries.sort(key=lambda x: x.date)`: Python's stable date sort. -/
def sortByDate (ts : List Txn) : List Txn :=
  ts.foldl (fun acc t => insertByDate t acc) []

/-- The date of an entry. -/
def entryDate : Entry → Int
  | .tx t => t.date
  | .bal b => b.date

/-- `Importer.extract`'s cutoff scan condition: an existing Transaction, not
flagged `'!'`, with a posting on the importer's account. -/
def qualifies (iacct : Str) : Entry → Bool
  | .tx t => t.flag != flagBang && t.postings.any fun p => p.account == iacct
  | .bal _ => false

/-- The cutoff reference `Importer.extract` computes: scan the existing
entries in reverse and take the date of the first qualifying transaction. -/
def latestRefDate (iacct : Str) (es : List Entry) : Option Int :=
  (es.reverse.find? (qualifies iacct)).map entryDate

/-- C10 reads the cutoff reference as the date of the latest — maximal-date —
qualifying existing transaction.  Defined from the claim's words, for
comparison with `latestRefDate` (the code's reverse positional scan). -/
def claimLatestQualifyingDate (iacct : Str) (es : List Entry) : Option Int :=
  ((es.filter (qualifies iacct)).map entryDate).max?

/-- The balance entry `Importer.extract` appends after filtering: dated one
day after the last seen balance row, on the importer's account. -/
def balEntries (iacct : Str) : Option LastBal → List Entry
  | none => []
  | some lb => [.bal ⟨lb.date + 1, iacct, lb.amount, currencyEUR, lb.meta⟩]

/-- `Importer.extract`: empty on an unidentified file; otherwise parse, sort
by date, drop transactions older than `cutoff reference - cutoff_days` when
both a cutoff and existing entries are supplied and a qualifying existing
transaction exists, and append the balance entry. -/
def extract (fuel : Nat) (cfg : ImporterCfg) (rows : List Row)
    (existing : Option (List Entry)) : Option (List Entry) :=
  match identifyRows cfg.accountMap rows with
  | none => some []
  | some iacct =>
    match parseRows fuel cfg.extractors iacct rows with
    | none => none
    | some (txs, lastBal) =>
      let sorted := sortByDate txs
      let culled :=
        match cfg.cutoffDays, existing with
        | some cd, some es =>
          match latestRefDate iacct es with
          | some d => sorted.filter fun (t : Txn) => decide (d - cd ≤ t.date)
          | none => sorted
        | _, _ => sorted
      some (culled.map Entry.tx ++ balEntries iacct lastBal)

/-! ### The categorizer (src/beancount_aib/categorizer.py) -/

/-- `PayeeCategorizer.__init__` compiles each account's keyword list into
`(?i)^(k1|...|kn).*` and `_process` tests it with `regexp.match`; for the
literal keywords the mapping carries, that is a case-insensitive
starts-with-any-keyword test. -/
def catMatches (names : List Str) (payee : Str) : Bool :=
  names.any fun n => (strLower n).isPrefixOf (strLower payee)

/-- `PayeeCategorizer._process`: only a Transaction with exactly one posting
whose (non-empty) payee matches some account's keywords is changed, by
appending one amount-less posting for the first matching account. -/
def processEntry (cats : List (Str × List Str)) : Entry → Entry
  | .tx t =>
    if t.postings.length = 1 then
      match cats.find? (fun p => !t.payee.isEmpty && catMatches p.2 t.payee) with
      | some p => .tx { t with postings := t.postings ++ [⟨p.1, none⟩] }
      | none => .tx t
    else .tx t
  | .bal b => .bal b

/-- `PayeeCategorizer.__call__`: process every entry. -/
def categorize (cats : List (Str × List Str)) (es : List Entry) : List Entry :=
  es.map (processEntry cats)

/-! ### Predicates used by the claims -/

/-- A lowercase string: lower-casing it changes nothing. -/
def isLowerStr (s : Str) : Bool := strLower s == s

/-- A currency-code tag as the foreign-currency rule captures it: exactly
three uppercase letters. -/
def isCurrencyCode (s : Str) : Bool := s.length = 3 && s.all isReUpper

/-- The metadata keys a rule's actions can write. -/
def ruleMetaKeys (ru : Rule) : List Str :=
  ru.actions.filterMap fun a =>
    match a with
    | .metaA k _ _ _ => some k
    | _ => none

/-- Whether a list of actions contains no tag action. -/
def noTagAction (acts : List Action) : Bool :=
  acts.all fun a =>
    match a with
    | .tagA _ _ => false
    | _ => true

/-- Whether a pattern contains no capture group (such patterns leave the
capture environment untouched). -/
def noGrp : Re → Bool
  | .epsR | .chC _ | .litS _ | .starC _ | .plusC _ | .repC _ _ _ => true
  | .bos | .eos | .wb | .laR _ _ | .lbNeg _ => true
  | .catR a b | .altR a b => noGrp a && noGrp b
  | .optR a => noGrp a
  | .grpR _ _ => false

/-- Whether an entry is a balance directive. -/
def isBalE : Entry → Bool
  | .bal _ => true
  | .tx _ => false

/-- The keys of the flavour translation table. -/
def flavourKeys : List Str := flavourTbl.map (·.1)

/-- Concrete rows for the importer theorems' concrete instances: two debit
rows of one account, dated day 5 and day 6, both carrying a balance. -/
def c9Rows : List Row :=
  [⟨S ("111"), 5, S ("latte"), false, S ("3.50"), S ("100.00"), currencyEUR, []⟩,
   ⟨S ("111"), 6, S ("scone"), false, S ("2.00"), S ("98.00"), currencyEUR, []⟩]

/-- Importer configuration for the concrete instances: account `'111'`
mapped, no extractors, no cutoff. -/
def c9Cfg : ImporterCfg := ⟨[(S ("111"), S ("Assets:AIB"))], [], none⟩

/-- Importer configuration for the cutoff instances: as `c9Cfg` but with
`cutoff_days = 0`. -/
def c10Cfg : ImporterCfg := ⟨[(S ("111"), S ("Assets:AIB"))], [], some 0⟩

/-- Rows for the cutoff instances: transactions on days 3 and 5, no balance
column. -/
def c10Rows : List Row :=
  [⟨S ("111"), 3, S ("stick horse"), false, S ("1.00"), [], currencyEUR, []⟩,
   ⟨S ("111"), 5, S ("stick wyvern"), false, S ("2.00"), [], currencyEUR, []⟩]

/-- Existing entries for the cutoff instances: two qualifying transactions on
the importer's account, the one dated day 5 placed first in the list and the
one dated day 3 last. -/
def c10Existing : List Entry :=
  [.tx ⟨5, S ("*"), S ("nine golden rings"), [], [], [⟨S ("Assets:AIB"), none⟩]⟩,
   .tx ⟨3, S ("*"), S ("stick horse"), [], [], [⟨S ("Assets:AIB"), none⟩]⟩]

/-! ### Theorems -/

/-- A successful cleanup stops at a record one further pass leaves unchanged. -/
theorem cleanup_fix_of_some (fuel : Nat) (rules : List Rule) (rec rec' : TxRec)
    (h : cleanup fuel rules rec = some rec') : passRec rules rec' = rec' := by
  induction fuel generalizing rec with
  | zero => simp [cleanup] at h
  | succ n ih =>
    unfold cleanup at h
    by_cases hc : passRec rules rec = rec
    · rw [if_pos hc] at h
      cases h
      exact hc
    · rw [if_neg hc] at h
      exact ih _ h

/-- C1: cleanup is idempotent — for every record `r` and rule table `T`
(including the AIB table), a record `cleanup` successfully returns is
returned unchanged by a second `cleanup` with the same table, i.e.
`cleanup(cleanup(r, T), T) == cleanup(r, T)` whenever the first call
converges (non-convergence is a configuration error, spec section 7). -/
theorem cleanup_idempotent (fuel : Nat) (rules : List Rule) (rec rec' : TxRec)
    (h : cleanup fuel rules rec = some rec') : cleanup fuel rules rec' = some rec' := by
  have hfix := cleanup_fix_of_some fuel rules rec rec' h
  cases fuel with
  | zero => simp [cleanup] at h
  | succ n =>
    unfold cleanup
    rw [if_pos hfix]

/-- Witness for C1: the scenario record `'VDP-TESCO'` of the repository's own
tests cleans to `'TESCO'` tagged `point-of-sale`, and cleaning that result
again returns it unchanged. -/
theorem cleanup_idempotent_witness :
    cleanup 10 aibRules ⟨S ("TESCO"), [S ("point-of-sale")], []⟩
      = some ⟨S ("TESCO"), [S ("point-of-sale")], []⟩ :=
  cleanup_idempotent 10 aibRules ⟨S ("VDP-TESCO"), [], []⟩
    ⟨S ("TESCO"), [S ("point-of-sale")], []⟩ (by decide)

/-- C2 counterexample: the claim says a converged payee contains no substring
matched by any rule of the AIB table; but `'AMAZON PRIME VIDEO'` converges to
`'Amazon Prime'`, which the table's Amazon Prime rule (index 13, whose
Replace rewrites its match with itself) still matches. -/
theorem cleanup_fixpoint_counterexample :
    cleanup 20 aibRules ⟨S ("AMAZON PRIME VIDEO"), [], []⟩
        = some ⟨S ("Amazon Prime"), [], []⟩
      ∧ aibRules.get ⟨13, by decide⟩ = eAmazonPrime
      ∧ (reSearch eAmazonPrime.re eAmazonPrime.ic (S ("Amazon Prime"))).isSome = true :=
  ⟨by decide, rfl, by decide⟩

/-- C2 (amended): after cleanup with the AIB rule table converges, the payee
need not be free of rule matches (self-replacing rules such as Amazon Prime
still match); what holds is the fixpoint the engine's convergence means: one
further full pass over the table leaves the returned record unchanged. -/
theorem cleanup_converged_pass_fixpoint (fuel : Nat) (rec rec' : TxRec)
    (h : cleanup fuel aibRules rec = some rec') : passRec aibRules rec' = rec' :=
  cleanup_fix_of_some fuel aibRules rec rec' h

/-- Witness for the amended C2: the converged record of
`'AMAZON PRIME VIDEO'` is untouched by a further pass. -/
theorem cleanup_converged_pass_fixpoint_witness :
    passRec aibRules ⟨S ("Amazon Prime"), [], []⟩ = ⟨S ("Amazon Prime"), [], []⟩ :=
  cleanup_converged_pass_fixpoint 20 ⟨S ("AMAZON PRIME VIDEO"), [], []⟩
    ⟨S ("Amazon Prime"), [], []⟩ (by decide)

/-- C3: cleanup of `'VDA-PERNAMBUCO 100.00 BRL@ 0.17'` with the AIB table
returns payee `'PERNAMBUCO'`, the tag set `{'atm', 'BRL'}` (the
foreign-currency rule fires first, then the flavour rule translates the
stripped `'VDA'` prefix) and metadata `{'foreign-amount': '100.00'}`. -/
theorem cleanup_scenario_foreign_currency :
    cleanup 10 aibRules ⟨S ("VDA-PERNAMBUCO 100.00 BRL@ 0.17"), [], []⟩
        = some ⟨S ("PERNAMBUCO"), [S ("BRL"), S ("atm")],
                [(S ("foreign-amount"), S ("100.00"))]⟩
      ∧ [S ("BRL"), S ("atm")].Perm [S ("atm"), S ("BRL")] :=
  ⟨by decide, List.Perm.swap _ _ _⟩

/-- C4: cleanup of `'VDC-DUNNES DOGHN'` with the AIB table returns payee
`'Dunnes'` (the branch rule capitalizes the merchant name, longer than
`SHORT_NAME_LENGTH`), tags `{'contactless'}` (the stripped `'VDC'` flavour)
and metadata `{'location': 'doghn'}` (the lower-cased second capture). -/
theorem cleanup_scenario_branch_name :
    cleanup 10 aibRules ⟨S ("VDC-DUNNES DOGHN"), [], []⟩
      = some ⟨S ("Dunnes"), [S ("contactless")], [(S ("location"), S ("doghn"))]⟩ := by
  decide

/-- C5: a Meta action configured with both a translation table and a
transformer writes `transformer(translate(value))` — translation first
(exact-match lookup, pass-through on miss), transformer second; in
particular the AIB payment-processor rule on the payee `'SQ COFFEE'` writes
`metadata['payment-processor'] = transformer(translate('SQ'))`. -/
theorem meta_translate_then_transform :
    (∀ (m : RMatch) (key : Str) (v : TVal) (tbl : List (Str × Str)) (f : Str → Str)
        (rec : TxRec) (val : Str), resolveTVal m v = some val →
        applyAction m rec (.metaA key v tbl (some f))
          = { rec with meta := setMeta rec.meta key (f (metaTranslate tbl val)) })
      ∧ (∃ rc : TxRec,
          cleanup 10 aibRules ⟨S ("SQ COFFEE"), [], []⟩ = some rc
            ∧ lookupMeta rc.meta TAG = some (strLower (metaTranslate ppTbl (S ("SQ"))))) := by
  constructor
  · intro m key v tbl f rec val h
    simp [applyAction, h]
  · exact ⟨⟨S ("COFFEE"), [], [(TAG, S ("sq"))]⟩, by decide, by decide⟩

/-- Witness for C5: the generic equation at the payment-processor rule's
match of `'SQ COFFEE'`. -/
theorem meta_translate_then_transform_witness :
    applyAction ⟨[], S ("SQ "), S ("COFFEE"), [(1, S ("SQ"))]⟩ ⟨S ("SQ COFFEE"), [], []⟩
        (Action.metaA TAG (TVal.gref 1) ppTbl (some strLower))
      = ⟨S ("SQ COFFEE"), [], [(TAG, S ("sq"))]⟩ :=
  meta_translate_then_transform.1 ⟨[], S ("SQ "), S ("COFFEE"), [(1, S ("SQ"))]⟩
    TAG (TVal.gref 1) ppTbl strLower ⟨S ("SQ COFFEE"), [], []⟩ (S ("SQ")) (by decide)

/-- Writing a key makes it readable. -/
theorem lookupMeta_setMeta_self (m : List (Str × Str)) (k v : Str) :
    lookupMeta (setMeta m k v) k = some v := by
  induction m with
  | nil => simp [setMeta, lookupMeta]
  | cons p rest ih =>
    obtain ⟨k', v'⟩ := p
    by_cases h : k' = k
    · simp [setMeta, lookupMeta, h]
    · simpa [setMeta, lookupMeta, h] using ih

/-- Writing one key leaves other keys unchanged. -/
theorem lookupMeta_setMeta_other (m : List (Str × Str)) (k' k v : Str) (h : k' ≠ k) :
    lookupMeta (setMeta m k' v) k = lookupMeta m k := by
  induction m with
  | nil => simp [setMeta, lookupMeta, h]
  | cons p rest ih =>
    obtain ⟨k0, v0⟩ := p
    by_cases h0 : k0 = k'
    · subst h0
      simp [setMeta, lookupMeta, h]
    · by_cases h1 : k0 = k
      · simp only [setMeta, lookupMeta]
        rw [if_neg h0]
        simp [lookupMeta, h1]
      · simpa [setMeta, lookupMeta, h0, h1] using ih

/-- An action whose metadata key differs from `k` leaves `k`'s value alone. -/
theorem lookupMeta_applyAction (m : RMatch) (rec : TxRec) (a : Action) (k : Str)
    (h : ∀ key v tbl tf, a = .metaA key v tbl tf → key ≠ k) :
    lookupMeta (applyAction m rec a).meta k = lookupMeta rec.meta k := by
  cases a with
  | consume => rfl
  | replace v => cases hr : resolveTVal m v <;> simp [applyAction, hr]
  | tagA v tbl => cases hr : resolveTVal m v <;> simp [applyAction, hr]
  | metaA key v tbl tf =>
    cases hr : resolveTVal m v with
    | none => simp [applyAction, hr]
    | some val =>
      simp only [applyAction, hr]
      exact lookupMeta_setMeta_other _ _ _ _ (h key v tbl tf rfl)

/-- Folding actions none of which write the key `k` leaves `k`'s value alone. -/
theorem lookupMeta_foldl_actions (m : RMatch) (k : Str) :
    ∀ (acts : List Action) (rec : TxRec),
      (∀ a ∈ acts, ∀ key v tbl tf, a = Action.metaA key v tbl tf → key ≠ k) →
      lookupMeta (acts.foldl (applyAction m) rec).meta k = lookupMeta rec.meta k := by
  intro acts
  induction acts with
  | nil => intro rec _; rfl
  | cons a as ih =>
    intro rec hk
    rw [List.foldl_cons]
    rw [ih _ fun a' ha' => hk a' (List.mem_cons_of_mem _ ha')]
    exact lookupMeta_applyAction m rec a k (hk a (List.mem_cons_self _ _))

/-- A rule none of whose actions write the key `k` leaves `k`'s value alone. -/
theorem lookupMeta_applyRule (rec : TxRec) (ru : Rule) (k : Str)
    (h : k ∉ ruleMetaKeys ru) :
    lookupMeta ((applyRule rec ru).1).meta k = lookupMeta rec.meta k := by
  unfold applyRule
  cases hm : reSearch ru.re ru.ic rec.payee with
  | none => rfl
  | some m =>
    simp only []
    refine lookupMeta_foldl_actions m k ru.actions rec ?_
    intro a ha key v tbl tf hma hkk
    subst hma
    subst hkk
    exact h (List.mem_filterMap.2 ⟨_, ha, rfl⟩)

/-- A pass over a table none of whose rules write the key `k` leaves `k`'s
value alone. -/
theorem lookupMeta_passRec (k : Str) :
    ∀ (rules : List Rule) (rec : TxRec), (∀ ru ∈ rules, k ∉ ruleMetaKeys ru) →
      lookupMeta (passRec rules rec).meta k = lookupMeta rec.meta k := by
  have hfold : ∀ (rules : List Rule) (rec : TxRec), (∀ ru ∈ rules, k ∉ ruleMetaKeys ru) →
      lookupMeta (rules.foldl (fun rc ru => (applyRule rc ru).1) rec).meta k
        = lookupMeta rec.meta k := by
    intro rules
    induction rules with
    | nil => intro rec _; rfl
    | cons ru rus ih =>
      intro rec h
      rw [List.foldl_cons]
      rw [ih _ fun r hr => h r (List.mem_cons_of_mem _ hr)]
      exact lookupMeta_applyRule rec ru k (h ru (List.mem_cons_self _ _))
  intro rules rec h
  unfold passRec passRules
  exact hfold rules rec h

/-- The cleanup loop over a table none of whose rules write the key `k`
leaves `k`'s value alone. -/
theorem lookupMeta_cleanup (fuel : Nat) (rules : List Rule) (rec rc : TxRec) (k : Str)
    (h : ∀ ru ∈ rules, k ∉ ruleMetaKeys ru)
    (hc : cleanup fuel rules rec = some rc) :
    lookupMeta rc.meta k = lookupMeta rec.meta k := by
  induction fuel generalizing rec with
  | zero => simp [cleanup] at hc
  | succ n ih =>
    unfold cleanup at hc
    by_cases hfix : passRec rules rec = rec
    · rw [if_pos hfix] at hc
      cases hc
      rfl
    · rw [if_neg hfix] at hc
      rw [ih _ hc]
      exact lookupMeta_passRec k rules rec h

/-- No rule of the AIB table writes the key `'original-payee'`. -/
theorem aib_no_original_payee_key :
    ∀ ru ∈ aibRules, S ("original-payee") ∉ ruleMetaKeys ru := by
  decide

/-- C7 counterexample: the claim says the record returned by a cleanup with a
preserve key always maps that key to the pre-cleanup payee; but on
`'MUNDANE LTD'`, which no AIB rule touches, the key is absent — exactly what
tests/importer_test.py (test_current_account) expects for unchanged payees. -/
theorem preserve_original_counterexample :
    ∃ rc : TxRec,
      TxnPayeeCleanup 10 aibRules (some (S ("original-payee")))
          ⟨S ("MUNDANE LTD"), [], []⟩ = some rc
        ∧ lookupMeta rc.meta (S ("original-payee")) ≠ some (S ("MUNDANE LTD")) :=
  ⟨⟨S ("MUNDANE LTD"), [], []⟩, by decide, by decide⟩

/-- C7 (amended): cleanup invoked with the importer's preserve key
`'original-payee'` on a record not already carrying that key maps it to the
pre-cleanup payee exactly when cleanup changed the payee; an unchanged payee
leaves the key absent. -/
theorem preserve_original_conditional (fuel : Nat) (rec rc : TxRec)
    (h0 : lookupMeta rec.meta (S ("original-payee")) = none)
    (h : TxnPayeeCleanup fuel aibRules (some (S ("original-payee"))) rec = some rc) :
    (rc.payee ≠ rec.payee →
        lookupMeta rc.meta (S ("original-payee")) = some rec.payee)
      ∧ (rc.payee = rec.payee →
        lookupMeta rc.meta (S ("original-payee")) = none) := by
  unfold TxnPayeeCleanup at h
  cases hc : cleanup fuel aibRules rec with
  | none => rw [hc] at h; exact absurd h (by simp)
  | some r2 =>
    rw [hc] at h
    simp only [] at h
    by_cases hp : r2.payee = rec.payee
    · rw [if_pos hp] at h
      cases h
      have hkeep := lookupMeta_cleanup fuel aibRules rec rc (S ("original-payee"))
        aib_no_original_payee_key hc
      exact ⟨fun hne => absurd hp hne, fun _ => hkeep.trans h0⟩
    · rw [if_neg hp] at h
      cases h
      constructor
      · intro _
        exact lookupMeta_setMeta_self _ _ _
      · intro heq
        exact absurd heq hp

/-- Witness for the amended C7: `'VDC-SUMUP PASTRY'` is rewritten, so its
cleanup records the original payee under `'original-payee'`. -/
theorem preserve_original_conditional_witness :
    lookupMeta (⟨S ("PASTRY"), [S ("contactless")],
        [(TAG, S ("sumup")), (S ("original-payee"), S ("VDC-SUMUP PASTRY"))]⟩ : TxRec).meta
        (S ("original-payee"))
      = some (S ("VDC-SUMUP PASTRY")) :=
  (preserve_original_conditional 10 ⟨S ("VDC-SUMUP PASTRY"), [], []⟩
      ⟨S ("PASTRY"), [S ("contactless")],
        [(TAG, S ("sumup")), (S ("original-payee"), S ("VDC-SUMUP PASTRY"))]⟩
      (by decide) (by decide)).1 (by decide)

/-- C8: the categorizer processes every entry independently; it leaves
non-Transaction entries and transactions without exactly one posting
unchanged, and for a single-posting transaction whose (non-empty) payee
matches some account's case-insensitive starts-with keywords it appends
exactly one amount-less posting for the first matching account in mapping
iteration order (and leaves non-matching transactions unchanged). -/
theorem categorizer_single_posting (cats : List (Str × List Str)) :
    (∀ es : List Entry, categorize cats es = es.map (processEntry cats))
      ∧ (∀ b : BalDir, processEntry cats (.bal b) = .bal b)
      ∧ (∀ t : Txn, t.postings.length ≠ 1 → processEntry cats (.tx t) = .tx t)
      ∧ (∀ t : Txn, t.postings.length = 1 →
          ∀ p, cats.find? (fun q => !t.payee.isEmpty && catMatches q.2 t.payee) = some p →
            processEntry cats (.tx t)
              = .tx { t with postings := t.postings ++ [⟨p.1, none⟩] })
      ∧ (∀ t : Txn, t.postings.length = 1 →
          cats.find? (fun q => !t.payee.isEmpty && catMatches q.2 t.payee) = none →
            processEntry cats (.tx t) = .tx t) := by
  refine ⟨fun es => rfl, fun b => rfl, ?_, ?_, ?_⟩
  · intro t h
    simp [processEntry, h]
  · intro t h p hf
    simp [processEntry, h, hf]
  · intro t h hf
    simp [processEntry, h, hf]

/-- Witness for C8: a one-posting transaction with payee `'Dunnes Rathmines'`
gets one amount-less `Expenses:Food` posting appended (the first matching
account of the mapping). -/
theorem categorizer_single_posting_witness :
    processEntry [(S ("Expenses:Food"), [S ("dunnes"), S ("spar")])]
        (.tx ⟨7, S ("!"), S ("Dunnes Rathmines"), [], [],
          [⟨S ("Assets:AIB"), some (S ("-9.99"), currencyEUR)⟩]⟩)
      = .tx ⟨7, S ("!"), S ("Dunnes Rathmines"), [], [],
          [⟨S ("Assets:AIB"), some (S ("-9.99"), currencyEUR)⟩,
           ⟨S ("Expenses:Food"), none⟩]⟩ :=
  (categorizer_single_posting [(S ("Expenses:Food"), [S ("dunnes"), S ("spar")])]).2.2.2.1
    ⟨7, S ("!"), S ("Dunnes Rathmines"), [], [],
      [⟨S ("Assets:AIB"), some (S ("-9.99"), currencyEUR)⟩]⟩
    (by decide) (S ("Expenses:Food"), [S ("dunnes"), S ("spar")]) (by decide)

/-- When every parsed row carries a non-empty balance field, the last seen
balance is the last row's. -/
theorem parseRows_last_balance (fuel : Nat) (exs : List Rule) (iacct : Str) :
    ∀ (rows : List Row) (ts : List Txn) (lbo : Option LastBal) (lr : Row),
      rows.getLast? = some lr → (∀ row ∈ rows, row.balance ≠ []) →
      parseRows fuel exs iacct rows = some (ts, lbo) →
      lbo = some ⟨lr.date, pyStrip lr.balance, (rowTxn iacct lr).meta⟩ := by
  intro rows
  induction rows with
  | nil => intro ts lbo lr h; simp at h
  | cons row rest ih =>
    intro ts lbo lr hlast hbal hp
    unfold parseRows at hp
    cases ht : parseRowTx fuel exs iacct row with
    | none => rw [ht] at hp; exact absurd hp (by simp)
    | some t =>
      rw [ht] at hp
      cases hr : parseRows fuel exs iacct rest with
      | none => rw [hr] at hp; exact absurd hp (by simp)
      | some pair =>
        obtain ⟨ts', lbr⟩ := pair
        rw [hr] at hp
        simp only [Option.some.injEq, Prod.mk.injEq] at hp
        obtain ⟨-, hlbo⟩ := hp
        cases rest with
        | nil =>
          have hre : lbr = none := by
            unfold parseRows at hr
            simp only [Option.some.injEq, Prod.mk.injEq] at hr
            exact hr.2.symm
          have hlr : row = lr := by
            simpa using hlast
          subst hlr
          subst hre
          rw [← hlbo]
          simp [hbal row (List.mem_cons_self _ _)]
        | cons r2 rest' =>
          have hlast' : (r2 :: rest').getLast? = some lr := by
            rwa [List.getLast?_cons_cons] at hlast
          have hlbr := ih ts' lbr lr hlast'
            (fun r hr' => hbal r (List.mem_cons_of_mem _ hr')) hr
          rw [← hlbo, hlbr]
          rfl

/-- Transactions mapped into entries contain no balance directive. -/
theorem filter_isBalE_map_tx (ts : List Txn) :
    (ts.map Entry.tx).filter isBalE = [] := by
  induction ts with
  | nil => rfl
  | cons t ts ih => simp [isBalE, ih]

/-- C9: for an identified file all of whose rows carry a non-empty Balance
field, `Importer.extract` returns the transactions followed by exactly one
Balance directive, placed last, carrying the last row's stripped balance
amount and dated one day after the last row's transaction date — the cutoff
filter cannot remove it because it is appended after filtering. -/
theorem extract_balance_directive (fuel : Nat) (cfg : ImporterCfg) (rows : List Row)
    (existing : Option (List Entry)) (iacct : Str) (lr : Row) (out : List Entry)
    (hid : identifyRows cfg.accountMap rows = some iacct)
    (hlast : rows.getLast? = some lr)
    (hbal : ∀ row ∈ rows, row.balance ≠ [])
    (hex : extract fuel cfg rows existing = some out) :
    ∃ ts : List Txn,
      out = ts.map Entry.tx
          ++ [Entry.bal ⟨lr.date + 1, iacct, pyStrip lr.balance, currencyEUR,
                (rowTxn iacct lr).meta⟩]
        ∧ (out.filter isBalE).length = 1
        ∧ out.getLast? = some (Entry.bal ⟨lr.date + 1, iacct, pyStrip lr.balance,
            currencyEUR, (rowTxn iacct lr).meta⟩) := by
  cases hp : parseRows fuel cfg.extractors iacct rows with
  | none =>
    unfold extract at hex
    simp only [hid, hp] at hex
    exact absurd hex (by simp)
  | some pair =>
    obtain ⟨txs, lbo⟩ := pair
    unfold extract at hex
    simp only [hid, hp] at hex
    have hlb := parseRows_last_balance fuel cfg.extractors iacct rows txs lbo lr
      hlast hbal hp
    subst hlb
    simp only [Option.some.injEq] at hex
    subst hex
    refine ⟨(match cfg.cutoffDays, existing with
      | some cd, some es =>
        match latestRefDate iacct es with
        | some d => (sortByDate txs).filter fun (t : Txn) => decide (d - cd ≤ t.date)
        | none => sortByDate txs
      | _, _ => sortByDate txs), rfl, ?_, ?_⟩
    · rw [List.filter_append, filter_isBalE_map_tx]
      rfl
    · show ((_ : List Entry) ++ [Entry.bal _]).getLast? = _
      rw [List.getLast?_concat]

/-- Witness for C9: the two-row instance `c9Rows` (balances `100.00` then
`98.00`) extracts to two transactions followed by one balance directive for
`98.00` dated day 7. -/
theorem extract_balance_directive_witness :
    ∃ ts : List Txn,
      ([Entry.tx ⟨5, flagBang, S ("latte"), [], [],
          [⟨S ("Assets:AIB"), some (S ("-3.50"), currencyEUR)⟩]⟩,
        Entry.tx ⟨6, flagBang, S ("scone"), [], [],
          [⟨S ("Assets:AIB"), some (S ("-2.00"), currencyEUR)⟩]⟩,
        Entry.bal ⟨7, S ("Assets:AIB"), S ("98.00"), currencyEUR, []⟩] : List Entry)
        = ts.map Entry.tx
          ++ [Entry.bal ⟨7, S ("Assets:AIB"), S ("98.00"), currencyEUR, []⟩]
      ∧ (([Entry.tx ⟨5, flagBang, S ("latte"), [], [],
            [⟨S ("Assets:AIB"), some (S ("-3.50"), currencyEUR)⟩]⟩,
          Entry.tx ⟨6, flagBang, S ("scone"), [], [],
            [⟨S ("Assets:AIB"), some (S ("-2.00"), currencyEUR)⟩]⟩,
          Entry.bal ⟨7, S ("Assets:AIB"), S ("98.00"), currencyEUR, []⟩] :
            List Entry).filter isBalE).length = 1
      ∧ ([Entry.tx ⟨5, flagBang, S ("latte"), [], [],
            [⟨S ("Assets:AIB"), some (S ("-3.50"), currencyEUR)⟩]⟩,
          Entry.tx ⟨6, flagBang, S ("scone"), [], [],
            [⟨S ("Assets:AIB"), some (S ("-2.00"), currencyEUR)⟩]⟩,
          Entry.bal ⟨7, S ("Assets:AIB"), S ("98.00"), currencyEUR, []⟩] :
            List Entry).getLast?
          = some (Entry.bal ⟨7, S ("Assets:AIB"), S ("98.00"), currencyEUR, []⟩) :=
  extract_balance_directive 10 c9Cfg c9Rows none (S ("Assets:AIB"))
    ⟨S ("111"), 6, S ("scone"), false, S ("2.00"), S ("98.00"), currencyEUR, []⟩
    [Entry.tx ⟨5, flagBang, S ("latte"), [], [],
        [⟨S ("Assets:AIB"), some (S ("-3.50"), currencyEUR)⟩]⟩,
     Entry.tx ⟨6, flagBang, S ("scone"), [], [],
        [⟨S ("Assets:AIB"), some (S ("-2.00"), currencyEUR)⟩]⟩,
     Entry.bal ⟨7, S ("Assets:AIB"), S ("98.00"), currencyEUR, []⟩]
    (by decide) (by decide) (by decide) (by decide)

/-- C10 counterexample: the claim reads the cutoff reference as the date of
the latest (maximal-date) qualifying existing transaction; but the code scans
`reversed(existing_entries)` and stops at the first qualifying entry — the
last by position.  With `c10Existing` (day 5 first, day 3 last) and
`cutoff_days = 0`, the latest qualifying date is 5, yet extract keeps a
transaction dated 3 < 5 - 0. -/
theorem cutoff_reference_counterexample :
    ∃ out : List Entry,
      extract 10 c10Cfg c10Rows (some c10Existing) = some out
        ∧ claimLatestQualifyingDate (S ("Assets:AIB")) c10Existing = some 5
        ∧ ∃ t : Txn, Entry.tx t ∈ out ∧ t.date < 5 - (0 : Int) :=
  ⟨[Entry.tx ⟨3, flagBang, S ("stick horse"), [], [],
      [⟨S ("Assets:AIB"), some (S ("-1.00"), currencyEUR)⟩]⟩,
    Entry.tx ⟨5, flagBang, S ("stick wyvern"), [], [],
      [⟨S ("Assets:AIB"), some (S ("-2.00"), currencyEUR)⟩]⟩],
   by decide, by decide,
   ⟨⟨3, flagBang, S ("stick horse"), [], [],
      [⟨S ("Assets:AIB"), some (S ("-1.00"), currencyEUR)⟩]⟩, by decide, by decide⟩⟩

/-- C10 (amended): when `cutoff_days` and existing entries are both supplied,
`Importer.extract` takes as reference the date of the qualifying existing
transaction nearest the end of the list (first hit of the reverse scan; not
flagged `'!'`, with a posting on the importer's account) and keeps exactly
the extracted transactions dated on or after reference minus `cutoff_days`;
with no qualifying existing transaction, or without a cutoff or existing
entries, nothing is dropped. -/
theorem cutoff_filter_behaviour (fuel : Nat) (cfg : ImporterCfg) (rows : List Row)
    (iacct : Str) (txs : List Txn) (lb : Option LastBal)
    (hid : identifyRows cfg.accountMap rows = some iacct)
    (hp : parseRows fuel cfg.extractors iacct rows = some (txs, lb)) :
    (∀ (cd : Int) (es : List Entry) (d : Int), cfg.cutoffDays = some cd →
        latestRefDate iacct es = some d →
        extract fuel cfg rows (some es)
          = some ((((sortByDate txs).filter fun (t : Txn) => decide (d - cd ≤ t.date)).map
              Entry.tx) ++ balEntries iacct lb))
      ∧ (∀ (cd : Int) (es : List Entry), cfg.cutoffDays = some cd →
          latestRefDate iacct es = none →
          extract fuel cfg rows (some es)
            = some ((sortByDate txs).map Entry.tx ++ balEntries iacct lb))
      ∧ (cfg.cutoffDays = none →
          ∀ existing : Option (List Entry), extract fuel cfg rows existing
            = some ((sortByDate txs).map Entry.tx ++ balEntries iacct lb))
      ∧ (extract fuel cfg rows none
          = some ((sortByDate txs).map Entry.tx ++ balEntries iacct lb)) := by
  refine ⟨?_, ?_, ?_, ?_⟩
  · intro cd es d hcd href
    unfold extract
    simp only [hid, hp, hcd, href]
  · intro cd es hcd href
    unfold extract
    simp only [hid, hp, hcd, href]
  · intro hcd existing
    unfold extract
    simp only [hid, hp, hcd]
  · unfold extract
    simp only [hid, hp]
    cases cfg.cutoffDays <;> rfl

/-- Witness for the amended C10: on the concrete `c10` instance (reference
day 3 — the qualifying entry nearest the end — and `cutoff_days = 0`) both
extracted transactions survive the filter. -/
theorem cutoff_filter_behaviour_witness :
    extract 10 c10Cfg c10Rows (some c10Existing)
      = some ((((sortByDate
            [⟨3, flagBang, S ("stick horse"), [], [],
               [⟨S ("Assets:AIB"), some (S ("-1.00"), currencyEUR)⟩]⟩,
             ⟨5, flagBang, S ("stick wyvern"), [], [],
               [⟨S ("Assets:AIB"), some (S ("-2.00"), currencyEUR)⟩]⟩]).filter
          fun (t : Txn) => decide (3 - (0 : Int) ≤ t.date)).map Entry.tx)
        ++ balEntries (S ("Assets:AIB")) none) :=
  (cutoff_filter_behaviour 10 c10Cfg c10Rows (S ("Assets:AIB"))
      [⟨3, flagBang, S ("stick horse"), [], [],
         [⟨S ("Assets:AIB"), some (S ("-1.00"), currencyEUR)⟩]⟩,
       ⟨5, flagBang, S ("stick wyvern"), [], [],
         [⟨S ("Assets:AIB"), some (S ("-2.00"), currencyEUR)⟩]⟩] none
      (by decide) (by decide)).1 0 c10Existing 3 rfl (by decide)

/-- `Char.ofNat` round-trips on valid code points. -/
theorem charOfNat_toNat (n : Nat) (h : n < 55296) : (Char.ofNat n).toNat = n := by
  unfold Char.ofNat
  rw [dif_pos (Or.inl h)]
  rfl

/-- ASCII lower-casing is idempotent. -/
theorem pyLower_idem (c : Char) : pyLower (pyLower c) = pyLower c := by
  by_cases h : (65 ≤ c.toNat && c.toNat ≤ 90) = true
  · simp only [Bool.and_eq_true, decide_eq_true_eq] at h
    have h1 : pyLower c = Char.ofNat (c.toNat + 32) := by
      unfold pyLower
      rw [if_pos (by simp only [Bool.and_eq_true, decide_eq_true_eq]; omega)]
    have h2 : (Char.ofNat (c.toNat + 32)).toNat = c.toNat + 32 :=
      charOfNat_toNat _ (by omega)
    rw [h1]
    unfold pyLower
    rw [if_neg (by simp only [Bool.and_eq_true, decide_eq_true_eq, h2]; omega)]
  · have h1 : pyLower c = c := by
      unfold pyLower
      rw [if_neg h]
    rw [h1, h1]

/-- Lower-cased strings are lowercase. -/
theorem isLowerStr_strLower (s : Str) : isLowerStr (strLower s) = true := by
  have : strLower (strLower s) = strLower s := by
    unfold strLower
    rw [List.map_map]
    exact List.map_congr_left fun c _ => pyLower_idem c
  simp [isLowerStr, this]

/-- ASCII upper-casing never produces a lowercase letter. -/
theorem pyUpper_not_reLower (c : Char) (h : isReLower (pyUpper c) = true) : False := by
  unfold isReLower at h
  by_cases hr : (97 ≤ c.toNat && c.toNat ≤ 122) = true
  · have h1 : pyUpper c = Char.ofNat (c.toNat - 32) := by
      unfold pyUpper
      rw [if_pos hr]
    simp only [Bool.and_eq_true, decide_eq_true_eq] at hr
    have h2 : (Char.ofNat (c.toNat - 32)).toNat = c.toNat - 32 :=
      charOfNat_toNat _ (by omega)
    rw [h1] at h
    simp only [Bool.and_eq_true, decide_eq_true_eq] at h
    have h3 : 97 ≤ (Char.ofNat (c.toNat - 32)).toNat := h.1
    rw [h2] at h3
    omega
  · have h1 : pyUpper c = c := by
      unfold pyUpper
      rw [if_neg hr]
    rw [h1] at h
    simp only [Bool.and_eq_true, decide_eq_true_eq] at h
    exact hr (by simp only [Bool.and_eq_true, decide_eq_true_eq]; exact ⟨h.1, h.2⟩)

/-- The case-sensitive class test is the raw class. -/
theorem chTest_false (f : Char → Bool) (c : Char) : chTest false f c = f c := by
  simp [chTest]

/-- Dropping the consumed part of a prefix glues back to a plain drop. -/
theorem prefix_drop_glue (T r : Str) (k : Nat) (hp : T <+: r) (hk : k ≤ T.length) :
    T.drop k ++ r.drop T.length = r.drop k := by
  obtain ⟨s, rfl⟩ := hp
  rw [List.drop_left, List.drop_append_of_le_length hk]

/-- Taking within a prefix is taking from the whole. -/
theorem prefix_take_eq (T r : Str) (k : Nat) (hp : T <+: r) (hk : k ≤ T.length) :
    r.take k = T.take k := by
  obtain ⟨s, rfl⟩ := hp
  rw [List.take_append_of_le_length hk]

/-- Membership in the greedy-quantifier outcome list: the environment is
untouched and some admissible number of the available characters was
consumed. -/
theorem mem_gtMin (env : Env) :
    ∀ (taken l rest : Str) (lo : Nat) (o : ReOut), o ∈ gtMin env l taken rest lo →
      o.1 = env ∧ ∃ k, lo ≤ k ∧ k ≤ taken.length ∧ o.2.2 = taken.drop k ++ rest := by
  intro taken
  induction taken with
  | nil =>
    intro l rest lo o h
    unfold gtMin at h
    by_cases hlo : lo = 0
    · rw [if_pos hlo] at h
      rw [List.mem_singleton] at h
      subst h
      exact ⟨rfl, 0, by omega, by omega, rfl⟩
    · rw [if_neg hlo] at h
      exact absurd h (List.not_mem_nil o)
  | cons c cs ih =>
    intro l rest lo o h
    unfold gtMin at h
    rw [List.mem_append] at h
    rcases h with h | h
    · obtain ⟨he, k', hk1, hk2, hr⟩ := ih (c :: l) rest (lo - 1) o h
      exact ⟨he, k' + 1, by omega, by simpa using Nat.succ_le_succ hk2, hr⟩
    · by_cases hlo : lo = 0
      · rw [if_pos hlo] at h
        rw [List.mem_singleton] at h
        subst h
        exact ⟨rfl, 0, by omega, by omega, rfl⟩
      · rw [if_neg hlo] at h
        exact absurd h (List.not_mem_nil o)

/-- Membership in a concatenation's outcomes. -/
theorem mem_runs_catR (a b : Re) (ic : Bool) (l r : Str) (env : Env) (o : ReOut) :
    o ∈ runs (.catR a b) ic l r env
      ↔ ∃ o' ∈ runs a ic l r env, o ∈ runs b ic o'.2.1 o'.2.2 o'.1 := by
  simp [runs, List.mem_flatMap]

/-- Membership in an alternation's outcomes. -/
theorem mem_runs_altR (a b : Re) (ic : Bool) (l r : Str) (env : Env) (o : ReOut) :
    o ∈ runs (.altR a b) ic l r env
      ↔ o ∈ runs a ic l r env ∨ o ∈ runs b ic l r env := by
  simp [runs]

/-- Membership in a capture group's outcomes. -/
theorem mem_runs_grpR (n : Nat) (a : Re) (ic : Bool) (l r : Str) (env : Env) (o : ReOut) :
    o ∈ runs (.grpR n a) ic l r env
      ↔ ∃ o' ∈ runs a ic l r env,
          o = ((n, r.take (r.length - o'.2.2.length)) :: o'.1, o'.2.1, o'.2.2) := by
  simp only [runs, List.mem_map]
  exact exists_congr fun o' => and_congr_right fun _ => eq_comm

/-- A character class consumes exactly one admissible character. -/
theorem mem_runs_chC (f : Char → Bool) (ic : Bool) (l r : Str) (env : Env) (o : ReOut)
    (h : o ∈ runs (.chC f) ic l r env) :
    ∃ c rs, r = c :: rs ∧ chTest ic f c = true ∧ o = (env, c :: l, rs) := by
  cases r with
  | nil => simp [runs] at h
  | cons c rs =>
    by_cases hc : chTest ic f c = true
    · rw [show runs (.chC f) ic l (c :: rs) env = [(env, c :: l, rs)] by
        simp [runs, hc]] at h
      rw [List.mem_singleton] at h
      exact ⟨c, rs, rfl, hc, h⟩
    · rw [show runs (.chC f) ic l (c :: rs) env = [] by
        simp [runs, hc]] at h
      exact absurd h (List.not_mem_nil o)

/-- Start-of-string consumes nothing and requires an empty left context. -/
theorem mem_runs_bos (ic : Bool) (l r : Str) (env : Env) (o : ReOut)
    (h : o ∈ runs .bos ic l r env) : l = [] ∧ o = (env, l, r) := by
  by_cases hl : l.isEmpty
  · rw [show runs .bos ic l r env = [(env, l, r)] by simp [runs, hl]] at h
    rw [List.mem_singleton] at h
    exact ⟨List.isEmpty_iff.1 hl, h⟩
  · rw [show runs .bos ic l r env = [] by simp [runs, hl]] at h
    exact absurd h (List.not_mem_nil o)

/-- A successful literal match consumes a pointwise `litTest`-related block. -/
theorem litMatch_spec (ic : Bool) :
    ∀ (s l r l' r' : Str), litMatch ic s l r = some (l', r') →
      ∃ t, r = t ++ r' ∧ List.Forall₂ (fun p c => litTest ic p c = true) s t := by
  intro s
  induction s with
  | nil =>
    intro l r l' r' h
    simp only [litMatch, Option.some.injEq, Prod.mk.injEq] at h
    exact ⟨[], by simp [h.2], List.Forall₂.nil⟩
  | cons p ps ih =>
    intro l r l' r' h
    cases r with
    | nil => simp [litMatch] at h
    | cons c rs =>
      simp only [litMatch] at h
      by_cases hc : litTest ic p c = true
      · rw [if_pos hc] at h
        obtain ⟨t, hr, hf⟩ := ih (c :: l) rs l' r' h
        exact ⟨c :: t, by rw [hr]; rfl, List.Forall₂.cons hc hf⟩
      · rw [if_neg hc] at h
        simp at h

/-- Membership in a literal's outcomes. -/
theorem mem_runs_litS (s : Str) (ic : Bool) (l r : Str) (env : Env) (o : ReOut)
    (h : o ∈ runs (.litS s) ic l r env) :
    o.1 = env ∧ ∃ t, r = t ++ o.2.2
      ∧ List.Forall₂ (fun p c => litTest ic p c = true) s t := by
  cases hm : litMatch ic s l r with
  | none =>
    rw [show runs (.litS s) ic l r env = [] by simp [runs, hm]] at h
    exact absurd h (List.not_mem_nil o)
  | some pair =>
    obtain ⟨l', r'⟩ := pair
    rw [show runs (.litS s) ic l r env = [(env, l', r')] by simp [runs, hm]] at h
    rw [List.mem_singleton] at h
    subst h
    obtain ⟨t, hr, hf⟩ := litMatch_spec ic s l r l' r' hm
    exact ⟨rfl, t, hr, hf⟩

/-- Membership in a bounded greedy repetition's outcomes: the environment is
untouched, an admissible count of class characters is consumed. -/
theorem mem_runs_repC (f : Char → Bool) (lo hi : Nat) (ic : Bool) (l r : Str)
    (env : Env) (o : ReOut) (h : o ∈ runs (.repC f lo hi) ic l r env) :
    o.1 = env ∧ ∃ k, lo ≤ k ∧ k ≤ hi ∧ k ≤ r.length ∧ o.2.2 = r.drop k
      ∧ ∀ c ∈ r.take k, chTest ic f c = true := by
  unfold runs at h
  obtain ⟨he, k, hk1, hk2, hr⟩ := mem_gtMin env _ _ _ _ _ h
  have htp : (r.takeWhile (chTest ic f)).take hi <+: r :=
    (List.take_prefix hi (r.takeWhile (chTest ic f))).trans (List.takeWhile_prefix (chTest ic f))
  have hlen : ((r.takeWhile (chTest ic f)).take hi).length ≤ r.length := htp.length_le
  have hhi : ((r.takeWhile (chTest ic f)).take hi).length ≤ hi := by
    simp [List.length_take]
  refine ⟨he, k, hk1, by omega, by omega, ?_, ?_⟩
  · rw [hr, prefix_drop_glue _ _ _ htp hk2]
  · intro c hc
    rw [prefix_take_eq _ _ _ htp hk2] at hc
    exact List.mem_takeWhile_imp (List.mem_of_mem_take (List.mem_of_mem_take hc))

/-- Membership in an unbounded greedy star's outcomes. -/
theorem mem_runs_starC (f : Char → Bool) (ic : Bool) (l r : Str)
    (env : Env) (o : ReOut) (h : o ∈ runs (.starC f) ic l r env) :
    o.1 = env ∧ ∃ k, k ≤ r.length ∧ o.2.2 = r.drop k
      ∧ ∀ c ∈ r.take k, chTest ic f c = true := by
  unfold runs at h
  obtain ⟨he, k, _, hk2, hr⟩ := mem_gtMin env _ _ _ _ _ h
  have htp : r.takeWhile (chTest ic f) <+: r := List.takeWhile_prefix (chTest ic f)
  have hlen : (r.takeWhile (chTest ic f)).length ≤ r.length := htp.length_le
  refine ⟨he, k, by omega, ?_, ?_⟩
  · rw [hr, prefix_drop_glue _ _ _ htp hk2]
  · intro c hc
    rw [prefix_take_eq _ _ _ htp hk2] at hc
    exact List.mem_takeWhile_imp (List.mem_of_mem_take hc)

/-- Membership in a greedy plus's outcomes. -/
theorem mem_runs_plusC (f : Char → Bool) (ic : Bool) (l r : Str)
    (env : Env) (o : ReOut) (h : o ∈ runs (.plusC f) ic l r env) :
    o.1 = env ∧ ∃ k, k ≤ r.length ∧ o.2.2 = r.drop k
      ∧ ∀ c ∈ r.take k, chTest ic f c = true := by
  unfold runs at h
  obtain ⟨he, k, _, hk2, hr⟩ := mem_gtMin env _ _ _ _ _ h
  have htp : r.takeWhile (chTest ic f) <+: r := List.takeWhile_prefix (chTest ic f)
  have hlen : (r.takeWhile (chTest ic f)).length ≤ r.length := htp.length_le
  refine ⟨he, k, by omega, ?_, ?_⟩
  · rw [hr, prefix_drop_glue _ _ _ htp hk2]
  · intro c hc
    rw [prefix_take_eq _ _ _ htp hk2] at hc
    exact List.mem_takeWhile_imp (List.mem_of_mem_take hc)

/-- Capture-group-free patterns leave the environment untouched. -/
theorem runs_env_of_noGrp : ∀ (re : Re), noGrp re = true →
    ∀ (ic : Bool) (l r : Str) (env : Env) (o : ReOut), o ∈ runs re ic l r env →
      o.1 = env := by
  intro re
  induction re with
  | epsR =>
    intro _ ic l r env o h
    rw [show runs .epsR ic l r env = [(env, l, r)] from rfl, List.mem_singleton] at h
    rw [h]
  | chC f =>
    intro _ ic l r env o h
    obtain ⟨c, rs, -, -, ho⟩ := mem_runs_chC f ic l r env o h
    rw [ho]
  | litS s =>
    intro _ ic l r env o h
    exact (mem_runs_litS s ic l r env o h).1
  | catR a b iha ihb =>
    intro hng ic l r env o h
    simp only [noGrp, Bool.and_eq_true] at hng
    rw [mem_runs_catR] at h
    obtain ⟨o', ho', ho⟩ := h
    rw [ihb hng.2 ic _ _ _ o ho]
    exact iha hng.1 ic l r env o' ho'
  | altR a b iha ihb =>
    intro hng ic l r env o h
    simp only [noGrp, Bool.and_eq_true] at hng
    rw [mem_runs_altR] at h
    rcases h with h | h
    · exact iha hng.1 ic l r env o h
    · exact ihb hng.2 ic l r env o h
  | optR a iha =>
    intro hng ic l r env o h
    simp only [noGrp] at hng
    rw [show runs (.optR a) ic l r env = runs a ic l r env ++ [(env, l, r)] from rfl,
      List.mem_append] at h
    rcases h with h | h
    · exact iha hng ic l r env o h
    · rw [List.mem_singleton] at h
      rw [h]
  | starC f =>
    intro _ ic l r env o h
    exact (mem_runs_starC f ic l r env o h).1
  | plusC f =>
    intro _ ic l r env o h
    exact (mem_runs_plusC f ic l r env o h).1
  | repC f lo hi =>
    intro _ ic l r env o h
    exact (mem_runs_repC f lo hi ic l r env o h).1
  | grpR n a ih =>
    intro hng
    simp [noGrp] at hng
  | bos =>
    intro _ ic l r env o h
    obtain ⟨-, ho⟩ := mem_runs_bos ic l r env o h
    rw [ho]
  | eos =>
    intro _ ic l r env o h
    unfold runs at h
    split at h
    · rw [List.mem_singleton] at h
      rw [h]
    · exact absurd h (List.not_mem_nil o)
  | wb =>
    intro _ ic l r env o h
    unfold runs at h
    split at h
    · rw [List.mem_singleton] at h
      rw [h]
    · exact absurd h (List.not_mem_nil o)
  | laR p a ih =>
    intro _ ic l r env o h
    unfold runs at h
    split at h
    · rw [List.mem_singleton] at h
      rw [h]
    · exact absurd h (List.not_mem_nil o)
  | lbNeg s =>
    intro _ ic l r env o h
    unfold runs at h
    split at h
    · exact absurd h (List.not_mem_nil o)
    · rw [List.mem_singleton] at h
      rw [h]

/-- A capture group around a bounded class repetition records a block of
admissible characters of admissible length. -/
theorem mem_runs_grp_repC (n : Nat) (f : Char → Bool) (lo hi : Nat) (ic : Bool)
    (l r : Str) (env : Env) (o : ReOut)
    (ho : o ∈ runs (.grpR n (.repC f lo hi)) ic l r env) :
    ∃ t, o.1 = (n, t) :: env ∧ lo ≤ t.length ∧ t.length ≤ hi
      ∧ ∀ c ∈ t, chTest ic f c = true := by
  rw [mem_runs_grpR] at ho
  obtain ⟨o', ho', heq⟩ := ho
  obtain ⟨he, k, hk1, hk2, hk3, hrest, hchars⟩ := mem_runs_repC f lo hi ic l r env o' ho'
  have hcap : r.length - o'.2.2.length = k := by
    rw [hrest, List.length_drop]
    omega
  refine ⟨r.take k, ?_, ?_, ?_, hchars⟩
  · rw [heq]
    rw [hcap, he]
  · rw [List.length_take]
    omega
  · rw [List.length_take]
    omega

/-- A capture group around a group-free pattern prepends one capture. -/
theorem mem_runs_grp_noGrp (n : Nat) (a : Re) (hng : noGrp a = true) (ic : Bool)
    (l r : Str) (env : Env) (o : ReOut) (ho : o ∈ runs (.grpR n a) ic l r env) :
    ∃ t, o.1 = (n, t) :: env := by
  rw [mem_runs_grpR] at ho
  obtain ⟨o', ho', heq⟩ := ho
  refine ⟨r.take (r.length - o'.2.2.length), ?_⟩
  rw [heq, runs_env_of_noGrp a hng ic l r env o' ho']

/-- A successful search reports the capture environment of the head outcome
of some run of the pattern. -/
theorem searchFrom_spec (re : Re) (ic : Bool) :
    ∀ (rest lrev : Str) (m : RMatch), searchFrom re ic lrev rest = some m →
      ∃ (l r : Str) (o : ReOut) (os : List ReOut),
        runs re ic l r [] = o :: os ∧ m.groups = o.1 := by
  intro rest
  induction rest with
  | nil =>
    intro lrev m h
    rw [searchFrom] at h
    cases hr : runs re ic lrev [] [] with
    | nil =>
      rw [hr] at h
      exact absurd h (by simp)
    | cons o os =>
      obtain ⟨env, l2, r2⟩ := o
      rw [hr] at h
      have h2 := Option.some.inj h
      exact ⟨lrev, [], (env, l2, r2), os, hr, by rw [← h2]⟩
  | cons c rs ih =>
    intro lrev m h
    rw [searchFrom] at h
    cases hr : runs re ic lrev (c :: rs) [] with
    | nil =>
      rw [hr] at h
      exact ih (c :: lrev) m h
    | cons o os =>
      obtain ⟨env, l2, r2⟩ := o
      rw [hr] at h
      have h2 := Option.some.inj h
      exact ⟨lrev, c :: rs, (env, l2, r2), os, hr, by rw [← h2]⟩

/-- Case-insensitive literal blocks lower-case to the pattern's literal. -/
theorem strLower_of_forall2_litTest (s t : Str)
    (h : List.Forall₂ (fun p c => litTest true p c = true) s t) :
    strLower t = strLower s := by
  induction h with
  | nil => rfl
  | @cons p c s' t' hpc _ ih =>
    simp only [litTest, Bool.or_eq_true, Bool.and_eq_true, decide_eq_true_eq] at hpc
    have : pyLower c = pyLower p := by
      rcases hpc with h | ⟨-, h⟩
      · rw [h]
      · rw [h]
    simp only [strLower, List.map_cons] at ih ⊢
    rw [this, ih]

/-- Under `(?i)`, a character admitted by the `[apc]` class lower-cases into it. -/
theorem chTest_apc (c : Char) (h : chTest true isAPC c = true) :
    pyLower c = 'a' ∨ pyLower c = 'p' ∨ pyLower c = 'c' := by
  simp only [chTest, isAPC, Bool.true_and, Bool.or_eq_true, decide_eq_true_eq] at h
  rcases h with h | h
  · rcases h with (h | h) | h <;> rw [h] <;> decide
  · rcases h with h | h
    · rw [or_assoc] at h
      exact h
    · exfalso
      rcases h with (h | h) | h <;>
        exact pyUpper_not_reLower c (by rw [h]; decide)

/-- Under `(?i)`, a character admitted by the `[ap]` class lower-cases into it. -/
theorem chTest_msap (c : Char) (h : chTest true isMSAP c = true) :
    pyLower c = 'a' ∨ pyLower c = 'p' := by
  simp only [chTest, isMSAP, Bool.true_and, Bool.or_eq_true, decide_eq_true_eq] at h
  rcases h with h | h
  · rcases h with h | h <;> rw [h] <;> decide
  · rcases h with h | h
    · exact h
    · exfalso
      rcases h with h | h <;>
        exact pyUpper_not_reLower c (by rw [h]; decide)

/-- What a literal alternation branch consumes. -/
theorem lit_branch_consumed (s l r : Str) (env : Env) (o : ReOut)
    (ho : o ∈ runs (.litS s) true l r env) :
    strLower (r.take (r.length - o.2.2.length)) = strLower s := by
  obtain ⟨-, t, hr, hf⟩ := mem_runs_litS s true l r env o ho
  have hlen : s.length = t.length := hf.length_eq
  have h1 : r.length - o.2.2.length = t.length := by
    rw [hr, List.length_append]
    omega
  rw [h1, hr, List.take_left]
  exact strLower_of_forall2_litTest s t hf

/-- What a literal-then-class alternation branch consumes. -/
theorem litch_branch_consumed (s : Str) (f : Char → Bool) (l r : Str) (env : Env)
    (o : ReOut) (ho : o ∈ runs (.catR (.litS s) (.chC f)) true l r env) :
    ∃ c, chTest true f c = true
      ∧ strLower (r.take (r.length - o.2.2.length)) = strLower s ++ [pyLower c] := by
  rw [mem_runs_catR] at ho
  obtain ⟨o', ho', ho⟩ := ho
  obtain ⟨-, t, hr, hf⟩ := mem_runs_litS s true l r env o' ho'
  obtain ⟨c, rs, hr2, hc, hoe⟩ := mem_runs_chC f true _ _ _ _ ho
  have hr' : r = (t ++ [c]) ++ rs := by
    rw [hr, hr2]
    simp
  have h1 : r.length - o.2.2.length = (t ++ [c]).length := by
    rw [hoe]
    rw [hr']
    simp only [List.length_append, List.length_singleton]
    omega
  refine ⟨c, hc, ?_⟩
  rw [h1, hr', List.take_left]
  rw [strLower, List.map_append]
  rw [show (List.map pyLower t : Str) = strLower t from rfl,
    strLower_of_forall2_litTest s t hf]
  rfl

/-- Whatever the flavour alternation consumes lower-cases to a translation
key, or is empty. -/
theorem flavourAlt_consumed (l r : Str) (env : Env) (o : ReOut)
    (ho : o ∈ runs flavourAltRe true l r env) :
    strLower (r.take (r.length - o.2.2.length)) ∈ flavourKeys
      ∨ r.take (r.length - o.2.2.length) = [] := by
  simp only [flavourAltRe, altN] at ho
  simp only [mem_runs_altR] at ho
  rcases ho with h | h | h | h | h | h | h | h | h | h
  · obtain ⟨c, hc, heq⟩ := litch_branch_consumed _ _ _ _ _ _ h
    left
    rw [heq]
    rcases chTest_apc c hc with h1 | h1 | h1 <;> rw [h1] <;> decide
  · left
    rw [lit_branch_consumed _ _ _ _ _ h]
    decide
  · left
    rw [lit_branch_consumed _ _ _ _ _ h]
    decide
  · left
    rw [lit_branch_consumed _ _ _ _ _ h]
    decide
  · left
    rw [lit_branch_consumed _ _ _ _ _ h]
    decide
  · left
    rw [lit_branch_consumed _ _ _ _ _ h]
    decide
  · left
    rw [lit_branch_consumed _ _ _ _ _ h]
    decide
  · left
    rw [lit_branch_consumed _ _ _ _ _ h]
    decide
  · obtain ⟨c, hc, heq⟩ := litch_branch_consumed _ _ _ _ _ _ h
    left
    rw [heq]
    rcases chTest_msap c hc with h1 | h1 <;> rw [h1] <;> decide
  · right
    rw [show runs .epsR true l r env = [(env, l, r)] from rfl, List.mem_singleton] at h
    rw [h]
    simp

/-- The capture environment of any flavour-rule run: exactly group 1, whose
lower-cased content is a translation key or empty. -/
theorem flavour_capture (l r : Str) (o : ReOut)
    (ho : o ∈ runs eFlavour.re true l r []) :
    ∃ t, o.1 = [(1, t)] ∧ (strLower t ∈ flavourKeys ∨ t = []) := by
  have hre : eFlavour.re
      = .catR .bos (.catR (.grpR 1 flavourAltRe) (.chC fun c => c = '-' || c = ' ')) := rfl
  rw [hre] at ho
  rw [mem_runs_catR] at ho
  obtain ⟨o1, ho1, ho⟩ := ho
  obtain ⟨-, ho1e⟩ := mem_runs_bos _ _ _ _ _ ho1
  subst ho1e
  rw [mem_runs_catR] at ho
  obtain ⟨o2, ho2, ho⟩ := ho
  rw [mem_runs_grpR] at ho2
  obtain ⟨o2', ho2', ho2e⟩ := ho2
  have hcons := flavourAlt_consumed l r [] o2' ho2'
  have he2 : o2'.1 = [] := runs_env_of_noGrp flavourAltRe (by decide) true l r [] o2' ho2'
  obtain ⟨c, rs, -, -, hoe⟩ := mem_runs_chC _ _ _ _ _ _ ho
  refine ⟨r.take (r.length - o2'.2.2.length), ?_, hcons⟩
  rw [hoe, ho2e]
  simp [he2]

/-- The capture environment of any foreign-currency-rule run: group 2 holds
three uppercase letters. -/
theorem foreign_capture (l r : Str) (o : ReOut)
    (ho : o ∈ runs eForeign.re false l r []) :
    ∃ t t1, o.1 = [(2, t), (1, t1)] ∧ t.length = 3 ∧ ∀ c ∈ t, isReUpper c = true := by
  have hre : eForeign.re
      = .catR (.chC isSpaceC)
          (.catR (.grpR 1 (.plusC isDigitDot))
            (.catR (.chC isSpaceC)
              (.catR (.grpR 2 (.repC isReUpper 3 3))
                (.catR (.chC fun c => c = '@')
                  (.catR (.chC isSpaceC) (.plusC isDigitDot)))))) := rfl
  rw [hre] at ho
  rw [mem_runs_catR] at ho
  obtain ⟨o1, ho1, ho⟩ := ho
  obtain ⟨c1, rs1, -, -, ho1e⟩ := mem_runs_chC _ _ _ _ _ _ ho1
  subst ho1e
  rw [mem_runs_catR] at ho
  obtain ⟨o2, ho2, ho⟩ := ho
  obtain ⟨t1, ho2e⟩ := mem_runs_grp_noGrp 1 (.plusC isDigitDot) (by decide) _ _ _ _ _ ho2
  rw [mem_runs_catR] at ho
  obtain ⟨o3, ho3, ho⟩ := ho
  obtain ⟨c3, rs3, -, -, ho3e⟩ := mem_runs_chC _ _ _ _ _ _ ho3
  subst ho3e
  rw [mem_runs_catR] at ho
  obtain ⟨o4, ho4, ho⟩ := ho
  obtain ⟨t, ho4e, hl3, hl3', hchars⟩ := mem_runs_grp_repC 2 isReUpper 3 3 false _ _ _ _ ho4
  rw [mem_runs_catR] at ho
  obtain ⟨o5, ho5, ho⟩ := ho
  obtain ⟨c5, rs5, -, -, ho5e⟩ := mem_runs_chC _ _ _ _ _ _ ho5
  subst ho5e
  rw [mem_runs_catR] at ho
  obtain ⟨o6, ho6, ho⟩ := ho
  obtain ⟨c6, rs6, -, -, ho6e⟩ := mem_runs_chC _ _ _ _ _ _ ho6
  subst ho6e
  have hfin : o.1 = o4.1 := (mem_runs_plusC _ _ _ _ _ _ ho).1
  refine ⟨t, t1, ?_, by omega, ?_⟩
  · rw [hfin, ho4e, ho2e]
  · intro c hc
    rw [← chTest_false isReUpper c]
    exact hchars c hc

/-- A successful search of the foreign-currency rule captures a three-letter
uppercase currency code in group 2. -/
theorem foreign_match_grp2 (s : Str) (m : RMatch)
    (hm : reSearch eForeign.re eForeign.ic s = some m) :
    ∃ t, m.grp 2 = some t ∧ t.length = 3 ∧ ∀ c ∈ t, isReUpper c = true := by
  obtain ⟨l, r, o, os, hruns, hgroups⟩ := searchFrom_spec eForeign.re eForeign.ic s [] m hm
  have ho : o ∈ runs eForeign.re false l r [] := by
    rw [show runs eForeign.re false l r [] = runs eForeign.re eForeign.ic l r [] from rfl,
      hruns]
    exact List.mem_cons_self _ _
  obtain ⟨t, t1, he, hl3, hup⟩ := foreign_capture l r o ho
  refine ⟨t, ?_, hl3, hup⟩
  rw [RMatch.grp, hgroups, he]
  simp [List.find?]

/-- A successful search of the flavour rule captures in group 1 a string that
lower-cases to a translation key, or the empty string. -/
theorem flavour_match_grp1 (s : Str) (m : RMatch)
    (hm : reSearch eFlavour.re eFlavour.ic s = some m) :
    ∃ t, m.grp 1 = some t ∧ (strLower t ∈ flavourKeys ∨ t = []) := by
  obtain ⟨l, r, o, os, hruns, hgroups⟩ := searchFrom_spec eFlavour.re eFlavour.ic s [] m hm
  have ho : o ∈ runs eFlavour.re true l r [] := by
    rw [show runs eFlavour.re true l r [] = runs eFlavour.re eFlavour.ic l r [] from rfl,
      hruns]
    exact List.mem_cons_self _ _
  obtain ⟨t, he, hprop⟩ := flavour_capture l r o ho
  refine ⟨t, ?_, hprop⟩
  rw [RMatch.grp, hgroups, he]
  simp [List.find?]

/-- A tag found after insertion was there before or is the inserted value. -/
theorem mem_addTag (tags : List Str) (x t : Str) (h : t ∈ addTag tags x) :
    t ∈ tags ∨ t = x := by
  unfold addTag at h
  by_cases h1 : x = []
  · rw [if_pos h1] at h
    exact Or.inl h
  · rw [if_neg h1] at h
    by_cases h2 : tags.contains x = true
    · rw [if_pos h2] at h
      exact Or.inl h
    · rw [if_neg h2] at h
      rw [List.mem_append] at h
      rcases h with h | h
      · exact Or.inl h
      · rw [List.mem_singleton] at h
        exact Or.inr h

/-- Non-tag actions leave the tag set alone. -/
theorem tags_applyAction_nonTag (m : RMatch) (rec : TxRec) (a : Action)
    (h : ∀ v tbl, a ≠ Action.tagA v tbl) : (applyAction m rec a).tags = rec.tags := by
  cases a with
  | consume => rfl
  | replace v => cases hr : resolveTVal m v <;> simp [applyAction, hr]
  | tagA v tbl => exact absurd rfl (h v tbl)
  | metaA k v tbl tf => cases hr : resolveTVal m v <;> simp [applyAction, hr]

/-- What a tag action inserts. -/
theorem tags_applyAction_tagA (m : RMatch) (rec : TxRec) (v : TVal)
    (tbl : List (Str × Str)) (val : Str) (hv : resolveTVal m v = some val) :
    (applyAction m rec (.tagA v tbl)).tags = addTag rec.tags (tagTranslate tbl val) := by
  simp [applyAction, hv]

/-- Folding tag-free actions leaves the tag set alone. -/
theorem tags_foldl_noTag (m : RMatch) :
    ∀ (acts : List Action) (rec : TxRec), noTagAction acts = true →
      (acts.foldl (applyAction m) rec).tags = rec.tags := by
  intro acts
  induction acts with
  | nil => intro rec _; rfl
  | cons a as ih =>
    intro rec hn
    simp only [noTagAction, List.all_cons, Bool.and_eq_true] at hn
    rw [List.foldl_cons, ih _ hn.2]
    apply tags_applyAction_nonTag
    intro v tbl he
    subst he
    exact absurd hn.1 (by simp)

/-- A rule without tag actions leaves the tag set alone. -/
theorem tags_applyRule_noTag (rec : TxRec) (ru : Rule)
    (hn : noTagAction ru.actions = true) :
    ((applyRule rec ru).1).tags = rec.tags := by
  unfold applyRule
  cases hm : reSearch ru.re ru.ic rec.payee with
  | none => rfl
  | some m => exact tags_foldl_noTag m ru.actions rec hn

/-- Every flavour-table value is lowercase. -/
theorem flavour_values_lower :
    ∀ k ∈ flavourKeys, ((trLookup flavourTbl k).map isLowerStr).getD false = true := by
  decide

/-- Tag translation of a value whose lower-case is a flavour key yields a
lowercase tag. -/
theorem flavour_translate_lower (v : Str) (hk : strLower v ∈ flavourKeys) :
    isLowerStr (tagTranslate flavourTbl v) = true := by
  unfold tagTranslate
  cases hl : trLookup flavourTbl (strLower v) with
  | none =>
    have hval := flavour_values_lower (strLower v) hk
    rw [hl] at hval
    simp at hval
  | some w =>
    have hval := flavour_values_lower (strLower v) hk
    rw [hl] at hval
    simpa using hval

/-- The foreign-currency rule only adds currency-code tags. -/
theorem foreign_rule_tags (rec : TxRec) :
    ∀ t ∈ ((applyRule rec eForeign).1).tags, t ∈ rec.tags ∨ isCurrencyCode t = true := by
  cases hm : reSearch eForeign.re eForeign.ic rec.payee with
  | none =>
    intro t ht
    have he : (applyRule rec eForeign).1 = rec := by
      unfold applyRule
      rw [hm]
    rw [he] at ht
    exact Or.inl ht
  | some m =>
    intro t ht
    obtain ⟨tv, hgrp2, hlen, hup⟩ := foreign_match_grp2 rec.payee m hm
    have hres : resolveTVal m (TVal.gref 2) = some tv := hgrp2
    have key : ((applyRule rec eForeign).1).tags
        = addTag rec.tags (tagTranslate [] tv) := by
      have e1 : (applyRule rec eForeign).1
          = applyAction m (applyAction m (applyAction m rec
              (Action.metaA (S ("foreign-amount")) (TVal.gref 1) [] none))
              (Action.tagA (TVal.gref 2) [])) Action.consume := by
        unfold applyRule
        rw [hm]
        rfl
      rw [e1]
      rw [tags_applyAction_nonTag m _ Action.consume
        (fun v tbl hc => Action.noConfusion hc)]
      rw [tags_applyAction_tagA m _ (TVal.gref 2) [] tv hres]
      rw [tags_applyAction_nonTag m rec _ (fun v tbl hc => Action.noConfusion hc)]
    rw [key] at ht
    rcases mem_addTag _ _ _ ht with h | h
    · exact Or.inl h
    · right
      rw [h]
      have htr : tagTranslate [] tv = tv := rfl
      rw [htr, isCurrencyCode, hlen]
      simp only [List.all_eq_true, decide_eq_true_eq, Bool.and_eq_true]
      exact ⟨trivial, fun c hc => hup c hc⟩

/-- The flavour rule only adds lowercase tags. -/
theorem flavour_rule_tags (rec : TxRec) :
    ∀ t ∈ ((applyRule rec eFlavour).1).tags, t ∈ rec.tags ∨ isLowerStr t = true := by
  cases hm : reSearch eFlavour.re eFlavour.ic rec.payee with
  | none =>
    intro t ht
    have he : (applyRule rec eFlavour).1 = rec := by
      unfold applyRule
      rw [hm]
    rw [he] at ht
    exact Or.inl ht
  | some m =>
    intro t ht
    obtain ⟨tv, hgrp1, hprop⟩ := flavour_match_grp1 rec.payee m hm
    have hres : resolveTVal m (TVal.gref 1) = some tv := hgrp1
    have key : ((applyRule rec eFlavour).1).tags
        = addTag rec.tags (tagTranslate flavourTbl tv) := by
      have e1 : (applyRule rec eFlavour).1
          = applyAction m (applyAction m rec (Action.tagA (TVal.gref 1) flavourTbl))
              Action.consume := by
        unfold applyRule
        rw [hm]
        rfl
      rw [e1]
      rw [tags_applyAction_nonTag m _ Action.consume
        (fun v tbl hc => Action.noConfusion hc)]
      rw [tags_applyAction_tagA m rec (TVal.gref 1) flavourTbl tv hres]
    rw [key] at ht
    rcases mem_addTag _ _ _ ht with h | h
    · exact Or.inl h
    · right
      subst h
      rcases hprop with hk | hemp
      · exact flavour_translate_lower tv hk
      · subst hemp
        decide

/-- Every AIB rule preserves the lowercase-or-currency-code tag invariant. -/
theorem applyRule_tags_ok (ru : Rule) (hru : ru ∈ aibRules) (rec : TxRec)
    (hrec : ∀ t ∈ rec.tags, isLowerStr t = true ∨ isCurrencyCode t = true) :
    ∀ t ∈ ((applyRule rec ru).1).tags,
      isLowerStr t = true ∨ isCurrencyCode t = true := by
  simp only [aibRules, List.mem_cons, List.not_mem_nil, or_false] at hru
  rcases hru with h|h|h|h|h|h|h|h|h|h|h|h|h|h|h|h|h <;> subst h <;> intro t ht
  all_goals first
    | (rw [tags_applyRule_noTag rec _ (by decide)] at ht
       exact hrec t ht)
    | exact (foreign_rule_tags rec t ht).elim (fun hmem => hrec t hmem)
        fun hcur => Or.inr hcur
    | exact (flavour_rule_tags rec t ht).elim (fun hmem => hrec t hmem)
        fun hlow => Or.inl hlow

/-- Folding rules that preserve a tag invariant preserves it. -/
theorem foldl_rules_tags (P : Str → Prop) :
    ∀ (rules : List Rule),
      (∀ ru ∈ rules, ∀ rec : TxRec, (∀ t ∈ rec.tags, P t) →
        ∀ t ∈ ((applyRule rec ru).1).tags, P t) →
      ∀ rec : TxRec, (∀ t ∈ rec.tags, P t) →
        ∀ t ∈ (rules.foldl (fun rc ru => (applyRule rc ru).1) rec).tags, P t := by
  intro rules
  induction rules with
  | nil => intro _ rec hrec; exact hrec
  | cons ru rus ih =>
    intro hrules rec hrec
    rw [List.foldl_cons]
    exact ih (fun r hr => hrules r (List.mem_cons_of_mem _ hr)) _
      (hrules ru (List.mem_cons_self _ _) rec hrec)

/-- The cleanup loop preserves a per-pass tag invariant. -/
theorem cleanup_tags (P : Str → Prop) (rules : List Rule)
    (hrules : ∀ ru ∈ rules, ∀ rec : TxRec, (∀ t ∈ rec.tags, P t) →
      ∀ t ∈ ((applyRule rec ru).1).tags, P t) :
    ∀ (fuel : Nat) (rec rc : TxRec), (∀ t ∈ rec.tags, P t) →
      cleanup fuel rules rec = some rc → ∀ t ∈ rc.tags, P t := by
  intro fuel
  induction fuel with
  | zero => intro rec rc _ hc; simp [cleanup] at hc
  | succ n ih =>
    intro rec rc hrec hc
    unfold cleanup at hc
    by_cases hfix : passRec rules rec = rec
    · rw [if_pos hfix] at hc
      cases hc
      exact hrec
    · rw [if_neg hfix] at hc
      refine ih _ rc ?_ hc
      show ∀ t ∈ (passRec rules rec).tags, P t
      have : (passRec rules rec).tags
          = (rules.foldl (fun rc ru => (applyRule rc ru).1) rec).tags := rfl
      rw [this]
      exact foldl_rules_tags P rules hrules rec hrec

/-- C6 counterexample: a record with no tags at all (vacuously all-lowercase)
cleans, via the foreign-currency rule, to a record carrying the uppercase tag
`'BRL'` — exactly the scenario the repository's own tests expect. -/
theorem tags_lowercase_counterexample :
    ∃ rc : TxRec,
      cleanup 10 aibRules ⟨S ("X 100.00 BRL@ 0.17"), [], []⟩ = some rc
        ∧ S ("BRL") ∈ rc.tags ∧ isLowerStr (S ("BRL")) = false :=
  ⟨⟨S ("X"), [S ("BRL")], [(S ("foreign-amount"), S ("100.00"))]⟩,
    by decide, by decide, by decide⟩

/-- C6 (amended): starting from all-lowercase tags, every tag after cleanup
with the AIB rule table is lowercase or a currency code (a three-letter
uppercase string captured by the foreign-currency rule); the importer's own
foreign-currency tagging only adds lowercase tags. -/
theorem tags_lowercase_or_currency (fuel : Nat) (rec rc : TxRec)
    (h0 : ∀ t ∈ rec.tags, isLowerStr t = true)
    (h : cleanup fuel aibRules rec = some rc) :
    (∀ t ∈ rc.tags, isLowerStr t = true ∨ isCurrencyCode t = true)
      ∧ ∀ (iacct : Str) (row : Row) (t : Str), t ∈ (rowTxn iacct row).tags →
          isLowerStr t = true := by
  constructor
  · exact cleanup_tags (fun t => isLowerStr t = true ∨ isCurrencyCode t = true)
      aibRules applyRule_tags_ok fuel rec rc (fun t ht => Or.inl (h0 t ht)) h
  · intro iacct row t ht
    have he : (rowTxn iacct row).tags
        = if row.localCurrency ≠ currencyEUR then [strLower row.localCurrency]
          else [] := rfl
    rw [he] at ht
    split at ht
    · rw [List.mem_singleton] at ht
      rw [ht]
      exact isLowerStr_strLower row.localCurrency
    · exact absurd ht (List.not_mem_nil t)

/-- Witness for the amended C6: the tag emitted on `'Y 9.99 USD@ 1.1'` is a
currency code. -/
theorem tags_lowercase_or_currency_witness :
    isLowerStr (S ("USD")) = true ∨ isCurrencyCode (S ("USD")) = true :=
  (tags_lowercase_or_currency 10 ⟨S ("Y 9.99 USD@ 1.1"), [], []⟩
      ⟨S ("Y"), [S ("USD")], [(S ("foreign-amount"), S ("9.99"))]⟩
      (fun t ht => absurd ht (List.not_mem_nil t)) (by decide)).1
    (S ("USD")) (by decide)

end BeancountAib
